import Mathlib

/-!
# DSON value encoder and layout assembler

A shallow embedding of `dson/bytes_reader.go` and `dson/dfield/encode.go`.

Conventions of the embedding:

* a Go `[]byte` and a Go `string` are lists of bytes (`Fin 256`); a `nil` slice is `[]`;
* a Go `uint32` is a `Nat` reduced `% 2^32`, a Go `int`/`int32` is an `Int`;
  lengths of in-memory slices and strings, and the sums and small multiples of them that
  `CreateHeader` computes, are natural numbers (they stay far below `2^63`); the shifts and
  exclusive ors of `CreateMeta2Entry` act on the 64 bits of an `int`;
* a function that can end in a runtime failure (a failed type assertion, an index out of
  range, an explicit `panic`) returns `Option`, with `none` for the failure; a function
  that also has an `error` result returns `Outcome`;
* code of the repository that is not part of the two files (the hash function, the
  revision marker name, the magic number) is carried in a `Collab` record.
-/

namespace Dson

/-! ## Bytes and strings -/

/-- One byte. -/
abbrev Byte := Fin 256

/-- A Go string: an immutable sequence of bytes. -/
abbrev GoString := List Byte

/-- Go's `byte(v)` conversion of an unsigned integer: the low eight bits. -/
def byteOf (v : Nat) : Byte := ⟨v % 256, Nat.mod_lt v (by decide)⟩

/-- `binary.LittleEndian.PutUint32` into a fresh 4-byte slice. -/
def PutUint32 (v : Nat) : List Byte :=
  [byteOf v, byteOf (v >>> 8), byteOf (v >>> 16), byteOf (v >>> 24)]

/-- `binary.LittleEndian.Uint32` of a 4-byte slice. -/
def Uint32 (b0 b1 b2 b3 : Byte) : Nat :=
  b0.val ||| (b1.val <<< 8) ||| (b2.val <<< 16) ||| (b3.val <<< 24)

/-- Go's `int32(u)` conversion of a `uint32`: reinterpretation in two's complement. -/
def int32OfUint32 (u : Nat) : Int :=
  if u % 2 ^ 32 < 2 ^ 31 then ((u % 2 ^ 32 : Nat) : Int) else ((u % 2 ^ 32 : Nat) : Int) - 2 ^ 32

/-- Go's `uint32(n)` conversion of a signed integer: the value modulo `2^32`. -/
def uint32OfInt (n : Int) : Nat := (n % 2 ^ 32).toNat

/-! ## The byte reader (`dson/bytes_reader.go`) -/

/-- The errors a reader reports; `bytes.Reader.Read` has only `io.EOF`. -/
inductive IOError
  | EOF
  deriving DecidableEq, Repr

/-- The state of a `bytes.Reader`: the underlying bytes and the read index. -/
structure BytesReader where
  s : List Byte
  i : Nat
  deriving DecidableEq, Repr

/-- `NewBytesReader`. -/
def NewBytesReader (bs : List Byte) : BytesReader := { s := bs, i := 0 }

/-- `bytes.Reader.Len`: the number of unread bytes. -/
def BytesReader.Len (b : BytesReader) : Nat := b.s.length - b.i

/-- `bytes.Reader.Read`: at the end of the input nothing is copied and `io.EOF` is returned;
otherwise `copy(buf, s[i:])` overwrites a prefix of the buffer and the index advances.
Returns the reader afterwards, the buffer afterwards, the count and the error. -/
def BytesReader.Read (b : BytesReader) (buf : List Byte) :
    BytesReader × List Byte × Nat × Option IOError :=
  if b.s.length ≤ b.i then
    (b, buf, 0, some IOError.EOF)
  else
    let src := b.s.drop b.i
    let n := min buf.length src.length
    ({ b with i := b.i + n }, src.take n ++ buf.drop n, n, none)

/-- `BytesReader.ReadInt`: the reader afterwards, the integer and the error. -/
def BytesReader.ReadInt (b : BytesReader) : BytesReader × Int × Option IOError :=
  match b.Read (List.replicate 4 0) with
  | (b1, _, _, some err) => (b1, 0, some err)
  | (b1, bs, _, none) =>
    let result := Uint32 (bs.getD 0 0) (bs.getD 1 0) (bs.getD 2 0) (bs.getD 3 0)
    (b1, int32OfUint32 result, none)

/-- `binary.LittleEndian.Uint64` of an 8-byte slice. -/
def Uint64 (b0 b1 b2 b3 b4 b5 b6 b7 : Byte) : Nat :=
  b0.val ||| (b1.val <<< 8) ||| (b2.val <<< 16) ||| (b3.val <<< 24)
    ||| (b4.val <<< 32) ||| (b5.val <<< 40) ||| (b6.val <<< 48) ||| (b7.val <<< 56)

/-- Go's `int64(u)` conversion of a `uint64`: reinterpretation in two's complement. -/
def int64OfUint64 (u : Nat) : Int :=
  if u % 2 ^ 64 < 2 ^ 63 then ((u % 2 ^ 64 : Nat) : Int) else ((u % 2 ^ 64 : Nat) : Int) - 2 ^ 64

/-- `BytesReader.ReadLong`: the reader afterwards, the integer and the error. -/
def BytesReader.ReadLong (b : BytesReader) : BytesReader × Int × Option IOError :=
  match b.Read (List.replicate 8 0) with
  | (b1, _, _, some err) => (b1, 0, some err)
  | (b1, bs, _, none) =>
    let result := Uint64 (bs.getD 0 0) (bs.getD 1 0) (bs.getD 2 0) (bs.getD 3 0)
      (bs.getD 4 0) (bs.getD 5 0) (bs.getD 6 0) (bs.getD 7 0)
    (b1, int64OfUint64 result, none)

/-- `BytesReader.ReadBytes` for a count `n ≥ 0`: the reader afterwards, the bytes (`nil` on
an error) and the error. -/
def BytesReader.ReadBytes (b : BytesReader) (n : Nat) :
    BytesReader × List Byte × Option IOError :=
  match b.Read (List.replicate n 0) with
  | (b1, _, _, some err) => (b1, [], some err)
  | (b1, bs, _, none) => (b1, bs, none)

/-- `BytesReader.ReadString`: the reader afterwards, the string (`""` on an error) and the
error. -/
def BytesReader.ReadString (b : BytesReader) (n : Nat) :
    BytesReader × GoString × Option IOError :=
  match b.ReadBytes n with
  | (b1, _, some err) => (b1, [], some err)
  | (b1, bs, none) => (b1, bs, none)

/-! ## Dynamically typed values -/

/-- A `float64`: a finite dyadic number `m * 2^e`, a NaN or an infinity. -/
inductive Float64
  | finite (m : Int) (e : Int)
  | nan
  | inf (negative : Bool)
  deriving DecidableEq, Repr

/-- The integer part of a finite float (the fraction is discarded, towards zero). -/
def Float64.truncate : Float64 → Option Int
  | .finite m e => some (if 0 ≤ e then m * 2 ^ e.toNat else Int.tdiv m (2 ^ (-e).toNat))
  | .nan => none
  | .inf _ => none

/-- The shapes of a Go `any` that the encoders distinguish; `other` stands for a value of
any further dynamic type. -/
inductive Value
  | bool (b : Bool)
  | float64 (f : Float64)
  | int (n : Int)
  | uint32 (u : Nat)
  | int32 (n : Int)
  | string (s : GoString)
  | float64s (xs : List Float64)
  | strings (ss : List GoString)
  | bools (bs : List Bool)
  | anys (vs : List Value)
  | other

/-- Code and constants the two files use from the rest of the program. -/
structure Collab where
  /-- The function `dhash.HashString`; its result is a `uint32`. -/
  HashString : GoString → Nat
  /-- The constant `FieldNameRevision`. -/
  FieldNameRevision : GoString
  /-- The constant `dheader.MagicNumberBytes`. -/
  MagicNumberBytes : List Byte
  /-- The implementation-dependent result of `uint32(f)` where `f` is out of range. -/
  uint32OfFloatOutOfRange : Float64 → Nat
  /-- The implementation-dependent result of `int(f)` where `f` is out of range. -/
  intOfFloatOutOfRange : Float64 → Int
  /-- The function `math.Float32bits(float32(f))`; its result is a `uint32`. -/
  Float32bits : Float64 → Nat

/-- Go's `uint32(f)` for a `float64`: truncation when the result is representable, an
implementation-dependent `uint32` otherwise. -/
def uint32OfFloat (c : Collab) (f : Float64) : Nat :=
  match f.truncate with
  | some t => if 0 ≤ t ∧ t < 2 ^ 32 then t.toNat else c.uint32OfFloatOutOfRange f % 2 ^ 32
  | none => c.uint32OfFloatOutOfRange f % 2 ^ 32

/-- Go's `int(f)` for a `float64` (`int` has 64 bits): truncation when the result is
representable, an implementation-dependent `int` otherwise. -/
def intOfFloat (c : Collab) (f : Float64) : Int :=
  match f.truncate with
  | some t =>
    if -2 ^ 63 ≤ t ∧ t < 2 ^ 63 then t
    else (c.intOfFloatOutOfRange f + 2 ^ 63) % 2 ^ 64 - 2 ^ 63
  | none => (c.intOfFloatOutOfRange f + 2 ^ 63) % 2 ^ 64 - 2 ^ 63

/-! ## The value encoders (`dson/dfield/encode.go`) -/

/-- `EncodeValueInt`: the type switch leaves `valueUInt32` at 0 for an unlisted shape. -/
def EncodeValueInt (c : Collab) (value : Value) : List Byte :=
  let valueUInt32 : Nat :=
    match value with
    | .float64 valueFloat64 => uint32OfFloat c valueFloat64
    | .int valueInt => uint32OfInt valueInt
    | .uint32 u => u % 2 ^ 32
    | .int32 valueInt32 => uint32OfInt valueInt32
    | _ => 0
  PutUint32 valueUInt32

/-- `EncodeValueBool`; fails when the value is not a `bool`. -/
def EncodeValueBool (value : Value) : Option (List Byte) :=
  match value with
  | .bool valueBool => if valueBool then some [1] else some [0]
  | _ => none

/-- `EncodeValueChar`; fails when the value is not a string or is the empty string. -/
def EncodeValueChar (value : Value) : Option (List Byte) :=
  match value with
  | .string valueStr =>
    match valueStr with
    | b :: _ => some [b]
    | [] => none
  | _ => none

/-- `EncodeValueFloat`; fails when the value is not a `float64`. -/
def EncodeValueFloat (c : Collab) (value : Value) : Option (List Byte) :=
  match value with
  | .float64 valueFloat64 =>
    let valueUInt32 := c.Float32bits valueFloat64 % 2 ^ 32
    some (PutUint32 valueUInt32)
  | _ => none

/-- The three bytes of the string `"###"`. -/
def hashSentinel : GoString := [35, 35, 35]

/-- `EncodeValueString`; fails when the value is not a string. -/
def EncodeValueString (c : Collab) (value : Value) : Option (List Byte) :=
  match value with
  | .string valueStr =>
    if hashSentinel.isPrefixOf valueStr then
      let valueUInt32 := c.HashString (valueStr.drop 3) % 2 ^ 32
      some (EncodeValueInt c (.uint32 valueUInt32))
    else
      let bs := EncodeValueInt c (.int ((valueStr.length : Int) + 1))
      let bs := bs ++ valueStr
      let bs := bs ++ [0]
      some bs
  | _ => none

/-- `EncodeValueHybrid`: an element that is neither a `float64` nor a string gives `nil`. -/
def EncodeValueHybrid (c : Collab) (value : Value) : Option (List Byte) :=
  match value with
  | .float64 _ => some (EncodeValueInt c value)
  | .string _ => EncodeValueString c value
  | _ => some []

/-- `EncodeValueHybridVector`; fails when the value is not a `[]any`. -/
def EncodeValueHybridVector (c : Collab) (value : Value) : Option (List Byte) :=
  match value with
  | .anys valueAnyVector =>
    let bs := EncodeValueInt c (.int (valueAnyVector.length : Int))
    valueAnyVector.foldlM
      (fun bs valueAny => (EncodeValueHybrid c valueAny).map (fun e => bs ++ e)) bs
  | _ => none

/-- `EncodeValueStringVector`: a value that is not a `[]string` goes to the hybrid encoder. -/
def EncodeValueStringVector (c : Collab) (value : Value) : Option (List Byte) :=
  match value with
  | .strings valueStringVector =>
    let bs := EncodeValueInt c (.int (valueStringVector.length : Int))
    valueStringVector.foldlM
      (fun bs valueStr => (EncodeValueString c (.string valueStr)).map (fun e => bs ++ e)) bs
  | _ => EncodeValueHybridVector c value

/-- `EncodeValueIntVector`; a value of any other shape reaches the explicit `panic`. -/
def EncodeValueIntVector (c : Collab) (value : Value) : Option (List Byte) :=
  match value with
  | .float64s valueFloat64Vector =>
    let bs := EncodeValueInt c (.int (valueFloat64Vector.length : Int))
    some (valueFloat64Vector.foldl
      (fun bs valueFloat64 => bs ++ EncodeValueInt c (.float64 valueFloat64)) bs)
  | .strings _ => EncodeValueStringVector c value
  | .anys _ => EncodeValueHybridVector c value
  | _ => none

/-- `EncodeValueFloatVector`; fails when the value is not a `[]float64`. -/
def EncodeValueFloatVector (c : Collab) (value : Value) : Option (List Byte) :=
  match value with
  | .float64s valueFloat64Vector =>
    let bs := EncodeValueInt c (.int (valueFloat64Vector.length : Int))
    valueFloat64Vector.foldlM
      (fun bs valueFloat64 =>
        (EncodeValueFloat c (.float64 valueFloat64)).map (fun e => bs ++ e)) bs
  | _ => none

/-- The local function `oneOrZero` of `EncodeValueTwoBool`. -/
def oneOrZero (b : Bool) : Byte := if b then 1 else 0

/-- The type assertion `v.(bool)`. -/
def assertBool (v : Value) : Option Bool :=
  match v with
  | .bool b => some b
  | _ => none

/-- The slice `valueBoolVector` of `EncodeValueTwoBool`: the value itself when it is a
`[]bool`, the two leading booleans of a `[]any` otherwise. -/
def EncodeValueTwoBool.valueBoolVector (value : Value) : Option (List Bool) :=
  match value with
  | .bools bs => some bs
  | .anys valueHybridVector => do
    let v0 ← valueHybridVector[0]?
    let b0 ← assertBool v0
    let v1 ← valueHybridVector[1]?
    let b1 ← assertBool v1
    some [b0, b1]
  | _ => none

/-- `EncodeValueTwoBool`; fails on a failed type assertion or an index out of range. -/
def EncodeValueTwoBool (value : Value) : Option (List Byte) :=
  (EncodeValueTwoBool.valueBoolVector value).bind fun valueBoolVector =>
    valueBoolVector[0]?.bind fun x0 =>
      valueBoolVector[1]?.bind fun x1 =>
        some [oneOrZero x0, 0, 0, 0, oneOrZero x1, 0, 0, 0]

/-- `EncodeValueTwoInt`; fails on a failed type assertion or an index out of range. -/
def EncodeValueTwoInt (c : Collab) (value : Value) : Option (List Byte) :=
  match value with
  | .float64s valueIntVector => do
    let x0 ← valueIntVector[0]?
    let x1 ← valueIntVector[1]?
    some (EncodeValueInt c (.float64 x0) ++ EncodeValueInt c (.float64 x1))
  | _ => none

/-! ## Type tags and fields -/

/-- Modelled from the spec: the declaration of `DataType` and of its constants is not part
of the two files. The sixteen constants are the tags that `EncodeValue` registers;
`unregistered` stands for every other value of the type. -/
inductive DataType
  | Unknown
  | Bool
  | Char
  | Int
  | Float
  | String
  | IntVector
  | FloatVector
  | StringVector
  | HybridVector
  | TwoBool
  | TwoInt
  | FileRaw
  | FileDecoded
  | FileJSON
  | Object
  | unregistered (name : GoString)
  deriving DecidableEq

/-- Modelled from the spec: the declaration of `EncodingField` is not part of the two
files; these are the attributes the spec lists and the code reads and writes. -/
structure EncodingField where
  Key : GoString
  ValueType : DataType
  Value : Value
  Bytes : List Byte
  IsObject : Bool
  NumDirectChildren : Int
  NumAllChildren : Int

/-- The result of a function with a Go `(value, error)` result that can also end in a
runtime failure. -/
inductive Outcome (ε α : Type)
  | ok (a : α)
  | error (e : ε)
  | panic

/-- The error `ErrNoEncodeFunc`. -/
structure ErrNoEncodeFunc where
  Key : GoString
  ValueType : DataType
  Value : Value

/-- The type `EncodeFunc` of `EncodeValue`. -/
abbrev EncodeFunc := Value → Option (List Byte)

/-- The local function `returnNothing` of `EncodeValue`. -/
def returnNothing : EncodeFunc := fun _ => some []

/-- The map `dispatchMap` of `EncodeValue`, as a lookup. -/
def dispatchMap (c : Collab) : DataType → Option EncodeFunc
  | .Unknown => some returnNothing
  | .Bool => some EncodeValueBool
  | .Char => some EncodeValueChar
  | .Int => some (fun v => some (EncodeValueInt c v))
  | .Float => some (EncodeValueFloat c)
  | .String => some (EncodeValueString c)
  | .IntVector => some (EncodeValueIntVector c)
  | .FloatVector => some (EncodeValueFloatVector c)
  | .StringVector => some (EncodeValueStringVector c)
  | .HybridVector => some (EncodeValueHybridVector c)
  | .TwoBool => some EncodeValueTwoBool
  | .TwoInt => some (EncodeValueTwoInt c)
  | .FileRaw => some returnNothing
  | .FileDecoded => some returnNothing
  | .FileJSON => some returnNothing
  | .Object => some returnNothing
  | .unregistered _ => none

/-- `EncodeValue`. -/
def EncodeValue (c : Collab) (key : GoString) (valueType : DataType) (value : Value) :
    Outcome ErrNoEncodeFunc (List Byte) :=
  match dispatchMap c valueType with
  | none => .error { Key := key, ValueType := valueType, Value := value }
  | some encodeFunc =>
    match encodeFunc value with
    | some bs => .ok bs
    | none => .panic

/-- The loop of `EncodeValues`, with the slice `fieldsCopy` built so far. -/
def EncodeValues.loop (c : Collab) (fieldsCopy : List EncodingField) :
    List EncodingField → Outcome ErrNoEncodeFunc (List EncodingField)
  | [] => .ok fieldsCopy
  | field :: rest =>
    match EncodeValue c field.Key field.ValueType field.Value with
    | .panic => .panic
    | .error err => .error err
    | .ok bs =>
      EncodeValues.loop c
        (fieldsCopy ++ [{ field with Bytes := bs, IsObject := field.ValueType == .Object }])
        rest

/-- `EncodeValues`. -/
def EncodeValues (c : Collab) (fields : List EncodingField) :
    Outcome ErrNoEncodeFunc (List EncodingField) :=
  EncodeValues.loop c [] fields

/-! ## The layout assembler -/

/-- The error `RevisionNotFoundError`. -/
structure RevisionNotFoundError where
  ActualFieldName : GoString
  deriving DecidableEq, Repr

/-- Modelled from the spec: the declaration of `dheader.Header` is not part of the two
files; these are the attributes `CreateHeader` fills in. -/
structure Header where
  MagicNumber : List Byte
  Revision : Int
  HeaderLength : Nat
  Zeroes : List Byte
  Meta1Size : Nat
  NumMeta1Entries : Nat
  Meta1Offset : Nat
  Zeroes2 : List Byte
  Zeroes3 : List Byte
  NumMeta2Entries : Nat
  Meta2Offset : Nat
  Zeroes4 : List Byte
  DataLength : Nat
  DataOffset : Nat
  deriving DecidableEq, Repr

/-- Modelled from the spec: the function `ds.NearestDivisibleByM` is not part of the two
files; the spec has it round its first argument up to the next multiple of the second,
a multiple staying as it is. -/
def NearestDivisibleByM (n m : Nat) : Nat :=
  if n % m = 0 then n else n + (m - n % m)

/-- Modelled from the spec: the function `lbytes.CreateZeroBytes` is not part of the two
files; the spec has it give a zero-filled region of the given size. -/
def CreateZeroBytes (n : Nat) : List Byte := List.replicate n 0

/-- `RemoveRevisionField`: keeps the fields whose key is not the revision marker. -/
def RemoveRevisionField (c : Collab) (fields : List EncodingField) : List EncodingField :=
  fields.filter (fun field => field.Key != c.FieldNameRevision)

/-- The accumulator function of the data-length fold of `CreateHeader`. -/
def dataLengthStep (r : Nat) (t : EncodingField) : Nat :=
  if t.Bytes.length ≥ 4 then
    NearestDivisibleByM (r + t.Key.length + 1) 4 + t.Bytes.length
  else
    r + t.Key.length + 1 + t.Bytes.length

/-- `CreateHeader`; fails on an empty list (`fields[0]`) and when the value of the first
field is not a `float64`. -/
def CreateHeader (c : Collab) (fields : List EncodingField) :
    Outcome RevisionNotFoundError Header :=
  match fields with
  | [] => .panic
  | firstField :: _ =>
    if firstField.Key != c.FieldNameRevision then
      .error { ActualFieldName := firstField.Key }
    else
      let fieldsWithoutRevision := RemoveRevisionField c fields
      match firstField.Value with
      | .float64 f =>
        let revision := intOfFloat c f
        let headerLength := 64
        let numMeta1Entries := fieldsWithoutRevision.countP (fun field => field.IsObject)
        let meta1Size := numMeta1Entries <<< 4
        let meta1Offset := headerLength
        let numMeta2Entries := fieldsWithoutRevision.length
        let meta2Offset := meta1Size + meta1Offset
        let meta2Size := 12 * numMeta2Entries
        let dataLength := fieldsWithoutRevision.foldl dataLengthStep 0
        let dataOffset := headerLength + meta1Size + meta2Size
        .ok {
          MagicNumber := c.MagicNumberBytes
          Revision := revision
          HeaderLength := headerLength
          Zeroes := CreateZeroBytes 4
          Meta1Size := meta1Size
          NumMeta1Entries := numMeta1Entries
          Meta1Offset := meta1Offset
          Zeroes2 := CreateZeroBytes 8
          Zeroes3 := CreateZeroBytes 8
          NumMeta2Entries := numMeta2Entries
          Meta2Offset := meta2Offset
          Zeroes4 := CreateZeroBytes 4
          DataLength := dataLength
          DataOffset := dataOffset }
      | _ => .panic

/-! ## Field descriptors and child counts -/

/-- The 64 bits of a Go `int` in two's complement, as an unsigned number. -/
def uint64OfInt (n : Int) : Nat := (n % 2 ^ 64).toNat

/-- Go's `a << k` on `int`: the 64 bits move up by `k` places and what leaves them is lost. -/
def shiftLeftInt (a : Int) (k : Nat) : Int := int64OfUint64 (uint64OfInt a <<< k)

/-- Go's `a ^ b` on `int`: the exclusive or of the 64 bits. -/
def xorInt (a b : Int) : Int := int64OfUint64 (uint64OfInt a ^^^ uint64OfInt b)

/-- Go's `a + b` on `int`: the sum in 64 bits. -/
def addInt (a b : Int) : Int := int64OfUint64 (uint64OfInt (a + b))

/-- Modelled from the spec: the declaration of `dmeta2.Entry` is not part of the two files;
these are the attributes `CreateMeta2Entry` fills in. -/
structure Meta2Entry where
  NameHash : Nat
  Offset : Int
  FieldInfo : Int
  deriving DecidableEq, Repr

/-- `CreateMeta2Entry`; `currentNumObject` and `fieldInfo` are Go `int`s of 64 bits, and the
shifts and exclusive ors act on those 64 bits. -/
def CreateMeta2Entry (c : Collab) (currentOffset : Int) (currentNumObject : Int)
    (field : EncodingField) : Meta2Entry :=
  let fieldInfo : Int := 0
  let fieldInfo := if field.IsObject then xorInt fieldInfo 1 else fieldInfo
  let fieldNameLength := addInt (field.Key.length : Int) 1
  let fieldInfo := xorInt fieldInfo (shiftLeftInt fieldNameLength 2)
  let fieldInfo := xorInt fieldInfo (shiftLeftInt currentNumObject 11)
  { NameHash := c.HashString (field.Key ++ [0]) % 2 ^ 32
    Offset := currentOffset
    FieldInfo := fieldInfo }

/-- The function `lo.Zip2` of the library `samber/lo`: the result is as long as the longer
list, and the shorter list is continued with the zero value of its element type. -/
def Zip2 {α β : Type} (zeroA : α) (zeroB : β) : List α → List β → List (α × β)
  | [], [] => []
  | a :: as, [] => (a, zeroB) :: Zip2 zeroA zeroB as []
  | [], b :: bs => (zeroA, b) :: Zip2 zeroA zeroB [] bs
  | a :: as, b :: bs => (a, b) :: Zip2 zeroA zeroB as bs

/-- The zero value of `EncodingField`; the zero value of `DataType`, whose declaration is
not part of the two files, is a parameter, and the `nil` value is `other`. -/
def zeroEncodingField (zeroType : DataType) : EncodingField where
  Key := []
  ValueType := zeroType
  Value := .other
  Bytes := []
  IsObject := false
  NumDirectChildren := 0
  NumAllChildren := 0

/-- `SetNumDirectChildren`. -/
def SetNumDirectChildren (zeroType : DataType) (fields : List EncodingField)
    (numsDirectChildren : List Int) : List EncodingField :=
  (Zip2 (zeroEncodingField zeroType) 0 fields numsDirectChildren).map fun t =>
    let field := t.1
    let numDirectChildren := t.2
    { field with NumDirectChildren := numDirectChildren }

/-- `SetNumAllChildren`. -/
def SetNumAllChildren (zeroType : DataType) (fields : List EncodingField)
    (numsAllChildren : List Int) : List EncodingField :=
  (Zip2 (zeroEncodingField zeroType) 0 fields numsAllChildren).map fun t =>
    let field := t.1
    let numAllChildren := t.2
    { field with NumAllChildren := numAllChildren }

/-! ## Sample collaborators

A concrete `Collab`, for evaluating the definitions on concrete inputs. -/

/-- A sample hash: the byte sum. -/
def sampleHash (s : GoString) : Nat := (s.map (fun b => b.val)).sum

/-- The bytes of `"__revision"`, the marker name the spec's scenarios assume. -/
def sampleRevisionName : GoString := [95, 95, 114, 101, 118, 105, 115, 105, 111, 110]

/-- A sample instantiation of the collaborators. -/
def sampleCollab : Collab where
  HashString := sampleHash
  FieldNameRevision := sampleRevisionName
  MagicNumberBytes := [1, 177, 0, 0]
  uint32OfFloatOutOfRange := fun _ => 0
  intOfFloatOutOfRange := fun _ => 0
  Float32bits := fun _ => 0

/-- A field as it is before encoding: no payload, no object flag, no child counts. -/
def plainField (key : GoString) (valueType : DataType) (value : Value) : EncodingField where
  Key := key
  ValueType := valueType
  Value := value
  Bytes := []
  IsObject := false
  NumDirectChildren := 0
  NumAllChildren := 0

/-- The revision field of the spec's scenarios: the marker as key, tag `Int`, a float value. -/
def revisionField (c : Collab) (revision : Float64) : EncodingField :=
  plainField c.FieldNameRevision .Int (.float64 revision)

/-- The bytes of `"foo"`. -/
def fooName : GoString := [102, 111, 111]

/-- The field `{"foo", Bool, true}` of the spec's first scenario. -/
def fooField : EncodingField := plainField fooName .Bool (.bool true)

/-- An object field. -/
def objField : EncodingField := plainField [111, 98, 106] .Object .other

/-- An encoded boolean field that carries the revision marker as its key. -/
def shadowField : EncodingField :=
  { plainField sampleRevisionName .Bool (.bool true) with Bytes := [1] }

/-- An encoded field whose key has 511 bytes. -/
def longKeyField : EncodingField := plainField (List.replicate 511 97) .Bool (.bool true)

/-- An encoded boolean field with the key `"a"` and a 1-byte payload. -/
def shortField : EncodingField := { plainField [97] .Bool (.bool true) with Bytes := [1] }

/-- An encoded integer field with the key `"b"` and a 4-byte payload. -/
def wordField : EncodingField :=
  { plainField [98] .Int (.float64 (.finite 7 0)) with Bytes := [7, 0, 0, 0] }

/-- A revision field whose value is the Go `int` 0 and not a float. -/
def intRevisionField : EncodingField := plainField sampleRevisionName .Int (.int 0)

/-! ## Notions used to state the claims -/

/-- The payload of an outcome that is a value, `[]` otherwise. -/
def Outcome.bytesOrNil {ε : Type} : Outcome ε (List Byte) → List Byte
  | .ok bs => bs
  | _ => []

/-- An encoder result as the outcome of `EncodeValue`: a failure of the encoder is a
runtime failure of the call. -/
def Outcome.ofEncoder (r : Option (List Byte)) : Outcome ErrNoEncodeFunc (List Byte) :=
  match r with
  | some bs => .ok bs
  | none => .panic

/-- What `EncodeValues` is to make of one field: the payload of `EncodeValue` in `Bytes`,
the object flag from the tag, every other attribute as it was. -/
def encodedField (c : Collab) (field : EncodingField) : EncodingField :=
  { field with
    Bytes := (EncodeValue c field.Key field.ValueType field.Value).bytesOrNil
    IsObject := field.ValueType == .Object }

/-- The tags that `EncodeValue` registers. -/
def registeredTags : List DataType :=
  [.Unknown, .Bool, .Char, .Int, .Float, .String, .IntVector, .FloatVector, .StringVector,
   .HybridVector, .TwoBool, .TwoInt, .FileRaw, .FileDecoded, .FileJSON, .Object]

/-- A field other than a revision field: its key is not the revision marker. -/
def isNonRevision (c : Collab) (field : EncodingField) : Bool :=
  field.Key != c.FieldNameRevision

/-- The data-length step as the spec words it: for a payload of at least 4 bytes round
`r + len(Key) + 1` up to a multiple of 4 and add the payload length, otherwise add
`len(Key) + 1 + len(Bytes)`. -/
def dataLengthSpecStep (r : Nat) (t : EncodingField) : Nat :=
  if 4 ≤ t.Bytes.length then
    (r + t.Key.length + 1 + 3) / 4 * 4 + t.Bytes.length
  else
    r + t.Key.length + 1 + t.Bytes.length

/-- The String encoding as the spec words it: the hash word for a string that starts with
`"###"`, otherwise the length word of `len + 1`, the bytes and a zero byte. -/
def stringBytes (c : Collab) (s : GoString) : List Byte :=
  if hashSentinel.isPrefixOf s then
    PutUint32 (c.HashString (s.drop 3) % 2 ^ 32)
  else
    PutUint32 (uint32OfInt ((s.length : Int) + 1)) ++ s ++ [0]

/-- What one element of a mixed sequence contributes: a float its Int encoding, a string
its String encoding, an element of any other shape nothing. -/
def hybridBytes (c : Collab) : Value → List Byte
  | .float64 f => EncodeValueInt c (.float64 f)
  | .string s => stringBytes c s
  | _ => []

/-! ## Little-endian words -/

theorem Uint32_eq_sum (b0 b1 b2 b3 : Byte) :
    Uint32 b0 b1 b2 b3 = b0.val + 256 * b1.val + 65536 * b2.val + 16777216 * b3.val := by
  have h0 := b0.isLt
  have h1 := b1.isLt
  have h2 := b2.isLt
  have h3 := b3.isLt
  unfold Uint32
  simp only [Nat.shiftLeft_eq]
  have e1 : b0.val ||| b1.val * 2 ^ 8 = 2 ^ 8 * b1.val + b0.val := by
    rw [Nat.lor_comm, Nat.mul_comm]
    exact (Nat.mul_add_lt_is_or (by omega) _).symm
  have e2 : (2 ^ 8 * b1.val + b0.val) ||| b2.val * 2 ^ 16
      = 2 ^ 16 * b2.val + (2 ^ 8 * b1.val + b0.val) := by
    rw [Nat.lor_comm, Nat.mul_comm]
    exact (Nat.mul_add_lt_is_or (by omega) _).symm
  have e3 : (2 ^ 16 * b2.val + (2 ^ 8 * b1.val + b0.val)) ||| b3.val * 2 ^ 24
      = 2 ^ 24 * b3.val + (2 ^ 16 * b2.val + (2 ^ 8 * b1.val + b0.val)) := by
    rw [Nat.lor_comm, Nat.mul_comm]
    exact (Nat.mul_add_lt_is_or (by omega) _).symm
  rw [e1, e2, e3]
  omega

theorem Uint32_PutUint32 (v : Nat) :
    Uint32 (byteOf v) (byteOf (v >>> 8)) (byteOf (v >>> 16)) (byteOf (v >>> 24))
      = v % 2 ^ 32 := by
  rw [Uint32_eq_sum]
  simp only [byteOf, Nat.shiftRight_eq_div_pow]
  omega

theorem PutUint32_length (v : Nat) : (PutUint32 v).length = 4 := rfl

theorem PutUint32_eq_div (v : Nat) :
    PutUint32 v = [byteOf v, byteOf (v / 256), byteOf (v / 65536), byteOf (v / 16777216)] := by
  simp [PutUint32, Nat.shiftRight_eq_div_pow]

theorem EncodeValueInt_length (c : Collab) (v : Value) : (EncodeValueInt c v).length = 4 := rfl

/-- Reading an integer back from a freshly written 4-byte word. -/
theorem ReadInt_PutUint32 (v : Nat) :
    (NewBytesReader (PutUint32 v)).ReadInt
      = ({ s := PutUint32 v, i := 4 }, int32OfUint32 v, none) := by
  have h := Uint32_PutUint32 v
  simp [BytesReader.ReadInt, BytesReader.Read, NewBytesReader, PutUint32, h, int32OfUint32]

theorem int32OfUint32_uint32OfInt (n : Int) (hlo : -2 ^ 31 ≤ n) (hhi : n < 2 ^ 31) :
    int32OfUint32 (uint32OfInt n) = n := by
  unfold int32OfUint32 uint32OfInt
  have h0 : (0 : Int) ≤ n % 2 ^ 32 := Int.emod_nonneg _ (by norm_num)
  have hm : (((n % 2 ^ 32).toNat % 2 ^ 32 : Nat) : Int) = n % 2 ^ 32 := by
    omega
  split_ifs with h <;> omega

/-! ## Claims about the scalar encoders -/

/-- C1: for an integer `n` with `-2^31 ≤ n < 2^31` given to `EncodeValueInt` as an `int` or
as an `int32`, `ReadInt` on a reader over the returned bytes yields `n` with no error and
leaves no unread byte; for a `uint32` input `u` it yields `u` when `u < 2^31` and
`u - 2^32` otherwise. -/
theorem EncodeValueInt_ReadInt_round_trip (c : Collab) (n : Int) (u : Nat)
    (hlo : -2 ^ 31 ≤ n) (hhi : n < 2 ^ 31) (hu : u < 2 ^ 32) :
    ((NewBytesReader (EncodeValueInt c (.int n))).ReadInt.2 = (n, none)
      ∧ (NewBytesReader (EncodeValueInt c (.int n))).ReadInt.1.Len = 0)
    ∧ ((NewBytesReader (EncodeValueInt c (.int32 n))).ReadInt.2 = (n, none)
      ∧ (NewBytesReader (EncodeValueInt c (.int32 n))).ReadInt.1.Len = 0)
    ∧ ((NewBytesReader (EncodeValueInt c (.uint32 u))).ReadInt.2
        = (if u < 2 ^ 31 then (u : Int) else (u : Int) - 2 ^ 32, none)
      ∧ (NewBytesReader (EncodeValueInt c (.uint32 u))).ReadInt.1.Len = 0) := by
  have hn := int32OfUint32_uint32OfInt n hlo hhi
  have hu32 : int32OfUint32 (u % 2 ^ 32)
      = if u < 2 ^ 31 then (u : Int) else (u : Int) - 2 ^ 32 := by
    unfold int32OfUint32
    have e : u % 2 ^ 32 % 2 ^ 32 = u := by omega
    rw [e]
  refine ⟨⟨?_, ?_⟩, ⟨?_, ?_⟩, ⟨?_, ?_⟩⟩
  · simp only [EncodeValueInt, ReadInt_PutUint32, hn]
  · simp only [EncodeValueInt, ReadInt_PutUint32, BytesReader.Len, PutUint32_length]
  · simp only [EncodeValueInt, ReadInt_PutUint32, hn]
  · simp only [EncodeValueInt, ReadInt_PutUint32, BytesReader.Len, PutUint32_length]
  · simp only [EncodeValueInt, ReadInt_PutUint32, hu32]
  · simp only [EncodeValueInt, ReadInt_PutUint32, BytesReader.Len, PutUint32_length]

/-- The round trip of C1 at `n = -2` and `u = 2^32 - 1`. -/
theorem EncodeValueInt_ReadInt_round_trip_witness :
    ((-2 ^ 31 : Int) ≤ -2 ∧ (-2 : Int) < 2 ^ 31 ∧ 4294967295 < 2 ^ 32)
    ∧ (NewBytesReader (EncodeValueInt sampleCollab (.int (-2)))).ReadInt.2 = (-2, none)
    ∧ (NewBytesReader (EncodeValueInt sampleCollab (.uint32 4294967295))).ReadInt.2
        = (-1, none) := by
  have h := EncodeValueInt_ReadInt_round_trip sampleCollab (-2) 4294967295
    (by decide) (by decide) (by decide)
  exact ⟨by decide, h.1.1, h.2.2.1⟩

/-- C2: for a string `s` that does not start with `"###"` and has `len(s) + 1 < 2^32`,
`EncodeValueString` returns the four little-endian bytes of `len(s) + 1`, then the bytes of
`s` unchanged, then one zero byte; so the length is `4 + len(s) + 1` and the last byte is 0. -/
theorem EncodeValueString_literal (c : Collab) (s : GoString)
    (hp : hashSentinel.isPrefixOf s = false) (hl : s.length + 1 < 2 ^ 32) :
    ∃ bs, EncodeValueString c (.string s) = some bs
      ∧ bs = [byteOf (s.length + 1), byteOf ((s.length + 1) / 256),
              byteOf ((s.length + 1) / 65536), byteOf ((s.length + 1) / 16777216)]
            ++ s ++ [0]
      ∧ Uint32 (bs.getD 0 0) (bs.getD 1 0) (bs.getD 2 0) (bs.getD 3 0) = s.length + 1
      ∧ bs.length = 4 + s.length + 1
      ∧ bs.getLast? = some 0 := by
  have hw : uint32OfInt ((s.length : Int) + 1) = s.length + 1 := by
    unfold uint32OfInt
    omega
  have hbs : EncodeValueString c (.string s)
      = some (PutUint32 (s.length + 1) ++ s ++ [0]) := by
    simp only [EncodeValueString, hp, EncodeValueInt, hw]
    rfl
  refine ⟨_, hbs, ?_, ?_, ?_, ?_⟩
  · rw [PutUint32_eq_div]
  · have h := Uint32_PutUint32 (s.length + 1)
    have e : (s.length + 1) % 2 ^ 32 = s.length + 1 := Nat.mod_eq_of_lt hl
    rw [e] at h
    simpa [PutUint32] using h
  · simp [PutUint32_length]
    omega
  · simp

/-- The literal encoding of C2 at the string `"ab"`. -/
theorem EncodeValueString_literal_witness :
    (hashSentinel.isPrefixOf ([97, 98] : GoString) = false
      ∧ ([97, 98] : GoString).length + 1 < 2 ^ 32)
    ∧ EncodeValueString sampleCollab (.string [97, 98]) = some [3, 0, 0, 0, 97, 98, 0] := by
  obtain ⟨bs, h1, h2, -⟩ :=
    EncodeValueString_literal sampleCollab [97, 98] (by decide) (by decide)
  refine ⟨⟨by decide, by decide⟩, ?_⟩
  rw [h1, h2]
  decide

/-- C3: for a string `s` that starts with `"###"` (also `"###"` itself), `EncodeValueString`
returns exactly four bytes, the little-endian encoding of the hash of `s` without its first
three bytes, for every hash function; no byte of `s` and no terminator follows. -/
theorem EncodeValueString_hashed (c : Collab) (s : GoString)
    (hp : hashSentinel.isPrefixOf s = true) :
    ∃ bs, EncodeValueString c (.string s) = some bs
      ∧ bs = [byteOf (c.HashString (s.drop 3) % 2 ^ 32),
              byteOf (c.HashString (s.drop 3) % 2 ^ 32 / 256),
              byteOf (c.HashString (s.drop 3) % 2 ^ 32 / 65536),
              byteOf (c.HashString (s.drop 3) % 2 ^ 32 / 16777216)]
      ∧ Uint32 (bs.getD 0 0) (bs.getD 1 0) (bs.getD 2 0) (bs.getD 3 0)
          = c.HashString (s.drop 3) % 2 ^ 32
      ∧ bs.length = 4 := by
  have hbs : EncodeValueString c (.string s)
      = some (PutUint32 (c.HashString (s.drop 3) % 2 ^ 32)) := by
    simp only [EncodeValueString, hp, EncodeValueInt]
    simp
  refine ⟨_, hbs, PutUint32_eq_div _, ?_, rfl⟩
  have h := Uint32_PutUint32 (c.HashString (s.drop 3) % 2 ^ 32)
  rw [Nat.mod_mod] at h
  simpa [PutUint32] using h

/-- The hashed encoding of C3 at the strings `"###"` and `"###ab"`, with the byte sum as the
hash. -/
theorem EncodeValueString_hashed_witness :
    (hashSentinel.isPrefixOf ([35, 35, 35] : GoString) = true
      ∧ EncodeValueString sampleCollab (.string [35, 35, 35]) = some [0, 0, 0, 0])
    ∧ (hashSentinel.isPrefixOf ([35, 35, 35, 97, 98] : GoString) = true
      ∧ EncodeValueString sampleCollab (.string [35, 35, 35, 97, 98])
          = some [195, 0, 0, 0]) := by
  obtain ⟨bs, h1, h2, -⟩ := EncodeValueString_hashed sampleCollab [35, 35, 35] (by decide)
  obtain ⟨bs2, h3, h4, -⟩ :=
    EncodeValueString_hashed sampleCollab [35, 35, 35, 97, 98] (by decide)
  refine ⟨⟨by decide, ?_⟩, ⟨by decide, ?_⟩⟩
  · rw [h1, h2]
    decide
  · rw [h3, h4]
    decide

/-- C4: `EncodeValueInt` returns exactly 4 bytes for every value, also one of a shape it
does not list; `EncodeValueFloat` returns exactly 4 bytes for every float; and whenever
`EncodeValueTwoBool` or `EncodeValueTwoInt` returns, it returns exactly 8 bytes. -/
theorem encoders_fixed_width (c : Collab) (v w x : Value) (f : Float64)
    (bs2b bs2i : List Byte)
    (h2b : EncodeValueTwoBool w = some bs2b) (h2i : EncodeValueTwoInt c x = some bs2i) :
    (EncodeValueInt c v).length = 4
    ∧ (EncodeValueInt c .other).length = 4
    ∧ (∃ bs, EncodeValueFloat c (.float64 f) = some bs ∧ bs.length = 4)
    ∧ bs2b.length = 8
    ∧ bs2i.length = 8 := by
  refine ⟨rfl, rfl, ⟨_, rfl, rfl⟩, ?_, ?_⟩
  · unfold EncodeValueTwoBool at h2b
    simp only [Option.bind_eq_some] at h2b
    obtain ⟨vec, -, x0, -, x1, -, h⟩ := h2b
    simp only [Option.some.injEq] at h
    rw [← h]
    rfl
  · unfold EncodeValueTwoInt at h2i
    cases x <;> simp only [Option.bind_eq_bind, Option.bind_eq_some, reduceCtorEq] at h2i
    obtain ⟨x0, -, x1, -, h⟩ := h2i
    simp only [Option.some.injEq] at h
    rw [← h]
    simp [EncodeValueInt_length]

/-- The widths of C4 at a pair of booleans and a pair of floats. -/
theorem encoders_fixed_width_witness :
    (EncodeValueTwoBool (.bools [true, false]) = some [1, 0, 0, 0, 0, 0, 0, 0]
      ∧ EncodeValueTwoInt sampleCollab (.float64s [.finite 1 0, .finite 3 1])
          = some [1, 0, 0, 0, 6, 0, 0, 0])
    ∧ ([1, 0, 0, 0, 0, 0, 0, 0] : List Byte).length = 8
    ∧ ([1, 0, 0, 0, 6, 0, 0, 0] : List Byte).length = 8 := by
  have h := encoders_fixed_width sampleCollab .other (.bools [true, false])
    (.float64s [.finite 1 0, .finite 3 1]) .nan
    [1, 0, 0, 0, 0, 0, 0, 0] [1, 0, 0, 0, 6, 0, 0, 0] (by decide) (by decide)
  exact ⟨⟨by decide, by decide⟩, h.2.2.2.1, h.2.2.2.2⟩

/-! ## `EncodeValues` field by field -/

theorem EncodeValues_loop_ok (c : Collab) :
    ∀ (fs acc out : List EncodingField), EncodeValues.loop c acc fs = .ok out →
      out = acc ++ fs.map (encodedField c)
      ∧ ∀ f ∈ fs, ∃ bs, EncodeValue c f.Key f.ValueType f.Value = .ok bs := by
  intro fs
  induction fs with
  | nil =>
    intro acc out h
    simp only [EncodeValues.loop, Outcome.ok.injEq] at h
    simp [h]
  | cons f rest ih =>
    intro acc out h
    unfold EncodeValues.loop at h
    cases hf : EncodeValue c f.Key f.ValueType f.Value with
    | panic => simp [hf] at h
    | error e => simp [hf] at h
    | ok bs =>
      simp only [hf] at h
      obtain ⟨h1, h2⟩ := ih _ _ h
      refine ⟨?_, ?_⟩
      · rw [h1]
        simp [encodedField, hf, Outcome.bytesOrNil]
      · intro g hg
        rcases List.mem_cons.mp hg with rfl | hg
        · exact ⟨bs, hf⟩
        · exact h2 g hg

theorem EncodeValues_ok (c : Collab) (fs out : List EncodingField)
    (h : EncodeValues c fs = .ok out) :
    out = fs.map (encodedField c)
    ∧ ∀ f ∈ fs, ∃ bs, EncodeValue c f.Key f.ValueType f.Value = .ok bs := by
  have := EncodeValues_loop_ok c fs [] out h
  simpa using this

/-! ## `CreateHeader` -/

/-- The header of a list that starts with a revision field whose value is a float. -/
theorem CreateHeader_ok (c : Collab) (firstField : EncodingField) (rest : List EncodingField)
    (h : Header) (hh : CreateHeader c (firstField :: rest) = .ok h) :
    firstField.Key = c.FieldNameRevision
    ∧ h.HeaderLength = 64
    ∧ h.Meta1Offset = 64
    ∧ h.NumMeta1Entries
        = (RemoveRevisionField c (firstField :: rest)).countP (fun field => field.IsObject)
    ∧ h.Meta1Size = h.NumMeta1Entries <<< 4
    ∧ h.NumMeta2Entries = (RemoveRevisionField c (firstField :: rest)).length
    ∧ h.Meta2Offset = h.Meta1Size + h.Meta1Offset
    ∧ h.DataLength = (RemoveRevisionField c (firstField :: rest)).foldl dataLengthStep 0
    ∧ h.DataOffset = h.HeaderLength + h.Meta1Size + 12 * h.NumMeta2Entries := by
  unfold CreateHeader at hh
  by_cases hk : firstField.Key = c.FieldNameRevision
  · simp only [hk, bne_self_eq_false, Bool.false_eq_true, if_false] at hh
    cases hv : firstField.Value <;> simp only [hv, reduceCtorEq] at hh
    simp only [Outcome.ok.injEq] at hh
    subst hh
    exact ⟨hk, rfl, rfl, rfl, rfl, rfl, rfl, rfl, rfl⟩
  · have hb : (firstField.Key != c.FieldNameRevision) = true := by simpa using hk
    simp [hb] at hh

/-- With the marker as first key and a float as first value a header is returned. -/
theorem CreateHeader_returns (c : Collab) (firstField : EncodingField)
    (rest : List EncodingField) (f : Float64)
    (hk : firstField.Key = c.FieldNameRevision) (hv : firstField.Value = .float64 f) :
    ∃ h, CreateHeader c (firstField :: rest) = .ok h ∧ h.Revision = intOfFloat c f := by
  simp only [CreateHeader, hk, bne_self_eq_false, Bool.false_eq_true, if_false, hv]
  exact ⟨_, rfl, rfl⟩

/-- C5, as the code has it: for a non-empty field list, `CreateHeader` returns an error,
which is then `RevisionNotFoundError` with the key of the first field as `ActualFieldName`
(and no header), if and only if the key of the first field is not the revision marker; when
it is the marker and the value of the first field is a `float64`, `CreateHeader` returns a
header and no error, and `Revision` is the integer value of that first field (its
truncation, when that is in the range of `int`); when it is the marker and the value has
any other shape, the call ends in a runtime failure. -/
theorem CreateHeader_revision (c : Collab) (firstField : EncodingField)
    (rest : List EncodingField) :
    (CreateHeader c (firstField :: rest) = .error { ActualFieldName := firstField.Key }
      ↔ firstField.Key ≠ c.FieldNameRevision)
    ∧ (∀ e, CreateHeader c (firstField :: rest) = .error e
        → e = { ActualFieldName := firstField.Key })
    ∧ (∀ f, firstField.Key = c.FieldNameRevision → firstField.Value = .float64 f →
        ∃ h, CreateHeader c (firstField :: rest) = .ok h
          ∧ h.Revision = intOfFloat c f
          ∧ ∀ t, f.truncate = some t → -2 ^ 63 ≤ t → t < 2 ^ 63 → h.Revision = t)
    ∧ (firstField.Key = c.FieldNameRevision → (∀ f, firstField.Value ≠ .float64 f) →
        CreateHeader c (firstField :: rest) = .panic) := by
  refine ⟨⟨?_, ?_⟩, ?_, ?_, ?_⟩
  · intro h hk
    unfold CreateHeader at h
    simp only [hk, bne_self_eq_false, Bool.false_eq_true, if_false] at h
    cases hv : firstField.Value <;> simp [hv] at h
  · intro hk
    have hb : (firstField.Key != c.FieldNameRevision) = true := by simpa using hk
    simp [CreateHeader, hb]
  · intro e h
    unfold CreateHeader at h
    by_cases hk : firstField.Key = c.FieldNameRevision
    · simp only [hk, bne_self_eq_false, Bool.false_eq_true, if_false] at h
      cases hv : firstField.Value <;> simp [hv] at h
    · have hb : (firstField.Key != c.FieldNameRevision) = true := by simpa using hk
      simp only [hb, if_true, Outcome.error.injEq] at h
      exact h.symm
  · intro f hk hv
    simp only [CreateHeader, hk, bne_self_eq_false, Bool.false_eq_true, if_false, hv]
    refine ⟨_, rfl, rfl, ?_⟩
    intro t ht hlo hhi
    simp only [intOfFloat, ht]
    rw [if_pos ⟨hlo, hhi⟩]
  · intro hk hv
    cases hval : firstField.Value with
    | float64 f => exact absurd hval (hv f)
    | _ => simp only [CreateHeader, hk, bne_self_eq_false, Bool.false_eq_true, if_false, hval]

/-- The error, the revision and the runtime failure of C5 at the one-field lists `[foo]`,
`[revision = 0.0]` and `[revision = int 0]`. -/
theorem CreateHeader_revision_witness :
    (fooField.Key ≠ sampleCollab.FieldNameRevision
      ∧ CreateHeader sampleCollab [fooField] = .error { ActualFieldName := fooName })
    ∧ ((revisionField sampleCollab (.finite 0 0)).Key = sampleCollab.FieldNameRevision
      ∧ (revisionField sampleCollab (.finite 0 0)).Value = .float64 (.finite 0 0)
      ∧ ∃ h, CreateHeader sampleCollab [revisionField sampleCollab (.finite 0 0)] = .ok h
          ∧ h.Revision = 0)
    ∧ (intRevisionField.Key = sampleCollab.FieldNameRevision
      ∧ (∀ f, intRevisionField.Value ≠ .float64 f)
      ∧ CreateHeader sampleCollab [intRevisionField] = .panic) := by
  have h1 := (CreateHeader_revision sampleCollab fooField []).1.mpr (by decide)
  obtain ⟨h, hh, -, ht⟩ :=
    (CreateHeader_revision sampleCollab (revisionField sampleCollab (.finite 0 0)) []).2.2.1
      (.finite 0 0) rfl rfl
  have hne : ∀ f, intRevisionField.Value ≠ .float64 f := by
    intro f hf
    cases hf
  have h3 := (CreateHeader_revision sampleCollab intRevisionField []).2.2.2 rfl hne
  exact ⟨⟨by decide, h1⟩, ⟨rfl, rfl, h, hh, ht 0 rfl (by decide) (by decide)⟩, rfl, hne, h3⟩

/-- C5 as stated fails: the list `[revision = int 0]` has the marker as first key and a
number as first value (`EncodeValueInt` encodes it as the word 0), but the value is not a
`float64`, so `CreateHeader` ends in a runtime failure and returns no header. -/
theorem CreateHeader_revision_counterexample :
    intRevisionField.Key = sampleCollab.FieldNameRevision
    ∧ intRevisionField.Value = .int 0
    ∧ EncodeValueInt sampleCollab intRevisionField.Value = [0, 0, 0, 0]
    ∧ CreateHeader sampleCollab [intRevisionField] = .panic
    ∧ ¬ ∃ h, CreateHeader sampleCollab [intRevisionField] = .ok h := by
  refine ⟨rfl, rfl, by decide, rfl, ?_⟩
  rintro ⟨h, hh⟩
  have hp : CreateHeader sampleCollab [intRevisionField] = .panic := rfl
  rw [hp] at hh
  cases hh

theorem RemoveRevisionField_map_encodedField (c : Collab) (fs : List EncodingField) :
    RemoveRevisionField c (fs.map (encodedField c))
      = (fs.filter (isNonRevision c)).map (encodedField c) := by
  unfold RemoveRevisionField
  rw [List.filter_map]
  rfl

/-- C6: for a field list whose first key is the revision marker, the header that
`CreateHeader` returns for the result of `EncodeValues` has `HeaderLength = 64`,
`Meta1Offset = 64`, `NumMeta1Entries` equal to the number of non-revision fields whose tag is
`Object`, `Meta1Size = 16 * NumMeta1Entries`, `Meta2Offset = Meta1Offset + Meta1Size` and
`DataOffset = Meta2Offset + 12 * NumMeta2Entries`; and a header is returned whenever the
value of the first field is a float. -/
theorem CreateHeader_block_layout (c : Collab) (firstField : EncodingField)
    (rest encoded : List EncodingField)
    (hfirst : firstField.Key = c.FieldNameRevision)
    (henc : EncodeValues c (firstField :: rest) = .ok encoded) :
    (∀ h, CreateHeader c encoded = .ok h →
      h.HeaderLength = 64
      ∧ h.Meta1Offset = 64
      ∧ h.NumMeta1Entries
          = ((firstField :: rest).filter (isNonRevision c)).countP
              (fun field => field.ValueType == .Object)
      ∧ h.Meta1Size = 16 * h.NumMeta1Entries
      ∧ h.Meta2Offset = h.Meta1Offset + h.Meta1Size
      ∧ h.DataOffset = h.Meta2Offset + 12 * h.NumMeta2Entries)
    ∧ (∀ f, firstField.Value = .float64 f → ∃ h, CreateHeader c encoded = .ok h) := by
  obtain ⟨he, -⟩ := EncodeValues_ok c _ _ henc
  rw [he, List.map_cons]
  constructor
  · intro h hh
    obtain ⟨-, h1, h2, h3, h4, -, h6, -, h8⟩ := CreateHeader_ok c _ _ h hh
    rw [← List.map_cons, RemoveRevisionField_map_encodedField, List.countP_map] at h3
    refine ⟨h1, h2, ?_, ?_, ?_, ?_⟩
    · rw [h3]
      rfl
    · rw [h4, Nat.shiftLeft_eq]
      omega
    · omega
    · omega
  · intro f hv
    obtain ⟨h, hh, -⟩ := CreateHeader_returns c (encodedField c firstField)
      (rest.map (encodedField c)) f hfirst hv
    exact ⟨h, hh⟩

/-- The layout of C6 for the list `[revision = 0, foo, obj]`: one object among two
non-revision fields, so the blocks start at 64, 64, 80 and 104. -/
theorem CreateHeader_block_layout_witness :
    ((revisionField sampleCollab (.finite 0 0)).Key = sampleCollab.FieldNameRevision
      ∧ EncodeValues sampleCollab [revisionField sampleCollab (.finite 0 0), fooField, objField]
          = .ok ([revisionField sampleCollab (.finite 0 0), fooField, objField].map
              (encodedField sampleCollab)))
    ∧ ∃ h, CreateHeader sampleCollab
          ([revisionField sampleCollab (.finite 0 0), fooField, objField].map
            (encodedField sampleCollab)) = .ok h
        ∧ h.Meta1Offset = 64 ∧ h.NumMeta1Entries = 1 ∧ h.Meta2Offset = 80
        ∧ h.NumMeta2Entries = 2 ∧ h.DataOffset = 104 := by
  have key := CreateHeader_block_layout sampleCollab (revisionField sampleCollab (.finite 0 0))
    [fooField, objField] _ rfl rfl
  obtain ⟨h, hh⟩ := key.2 (.finite 0 0) rfl
  obtain ⟨-, h2, h3, h4, h5, h6⟩ := key.1 h hh
  have h7 : h.NumMeta2Entries = 2 := by
    have := (CreateHeader_ok sampleCollab _ _ h hh).2.2.2.2.2.1
    rw [this]
    decide
  have h3' : h.NumMeta1Entries = 1 := by
    rw [h3]
    decide
  refine ⟨⟨rfl, rfl⟩, h, hh, h2, h3', ?_, h7, ?_⟩
  · omega
  · omega

theorem RemoveRevisionField_cons_revision (c : Collab) (firstField : EncodingField)
    (rest : List EncodingField) (hfirst : firstField.Key = c.FieldNameRevision) :
    RemoveRevisionField c (firstField :: rest) = rest.filter (isNonRevision c) := by
  unfold RemoveRevisionField
  rw [List.filter_cons]
  simp only [hfirst, bne_self_eq_false, Bool.false_eq_true, if_false]
  rfl

/-- C7, as the code has it: with the marker as first key, `NumMeta2Entries` is the number of
fields whose key is not the revision marker, and the data-length fold runs over exactly
those fields; every field that carries the marker key is left out, not only the first. When
no field after the first carries the marker key, `NumMeta2Entries` is the number of fields
minus one and the fold runs over all fields but the first. -/
theorem CreateHeader_NumMeta2Entries (c : Collab) (firstField : EncodingField)
    (rest : List EncodingField) (h : Header)
    (hfirst : firstField.Key = c.FieldNameRevision)
    (hh : CreateHeader c (firstField :: rest) = .ok h) :
    h.NumMeta2Entries = ((firstField :: rest).filter (isNonRevision c)).length
    ∧ h.DataLength = ((firstField :: rest).filter (isNonRevision c)).foldl dataLengthStep 0
    ∧ ((∀ f ∈ rest, f.Key ≠ c.FieldNameRevision) →
        h.NumMeta2Entries = (firstField :: rest).length - 1
        ∧ h.DataLength = rest.foldl dataLengthStep 0) := by
  obtain ⟨-, -, -, -, -, h5, -, h7, -⟩ := CreateHeader_ok c _ _ h hh
  have hr := RemoveRevisionField_cons_revision c firstField rest hfirst
  have hf : (firstField :: rest).filter (isNonRevision c) = rest.filter (isNonRevision c) := by
    rw [← hr]
    rfl
  rw [hr] at h5 h7
  refine ⟨by rw [h5, hf], by rw [h7, hf], ?_⟩
  intro hall
  have hall' : rest.filter (isNonRevision c) = rest := by
    rw [List.filter_eq_self]
    intro f hf
    simpa [isNonRevision] using hall f hf
  rw [hall'] at h5 h7
  exact ⟨by simpa using h5, h7⟩

/-- The count of C7 for the list `[revision = 0, foo]`: one meta2 entry. -/
theorem CreateHeader_NumMeta2Entries_witness :
    ((revisionField sampleCollab (.finite 0 0)).Key = sampleCollab.FieldNameRevision)
    ∧ ∃ h, CreateHeader sampleCollab [revisionField sampleCollab (.finite 0 0), fooField] = .ok h
        ∧ h.NumMeta2Entries = 1 := by
  obtain ⟨h, hh, -⟩ := CreateHeader_returns sampleCollab
    (revisionField sampleCollab (.finite 0 0)) [fooField] (.finite 0 0) rfl rfl
  have key := CreateHeader_NumMeta2Entries sampleCollab _ _ h rfl hh
  exact ⟨rfl, h, hh, (key.2.2 (by decide)).1⟩

/-- C7 as stated fails: in the two-field list `[revision = 0, shadow]`, whose second field
also carries the marker key, the first key is the marker and `NumMeta2Entries` is 0, not the
number of fields minus one. -/
theorem CreateHeader_NumMeta2Entries_counterexample :
    (revisionField sampleCollab (.finite 0 0)).Key = sampleCollab.FieldNameRevision
    ∧ ∃ h, CreateHeader sampleCollab [revisionField sampleCollab (.finite 0 0), shadowField]
          = .ok h
        ∧ h.NumMeta2Entries = 0
        ∧ h.NumMeta2Entries
          ≠ [revisionField sampleCollab (.finite 0 0), shadowField].length - 1 := by
  refine ⟨rfl, _, rfl, ?_, ?_⟩ <;> decide

/-! ## The data-length fold -/

theorem dataLengthStep_eq_spec (r : Nat) (t : EncodingField) :
    dataLengthStep r t = dataLengthSpecStep r t := by
  unfold dataLengthStep dataLengthSpecStep NearestDivisibleByM
  split_ifs <;> omega

theorem foldl_dataLengthStep_eq_spec (fs : List EncodingField) (r : Nat) :
    fs.foldl dataLengthStep r = fs.foldl dataLengthSpecStep r := by
  induction fs generalizing r with
  | nil => rfl
  | cons f rest ih => simp only [List.foldl_cons, dataLengthStep_eq_spec, ih]

/-- The header of a revision field followed by one field with another key. -/
theorem CreateHeader_pair (c : Collab) (g : Float64) (bs : List Byte) (t : EncodingField)
    (ht : t.Key ≠ c.FieldNameRevision) :
    ∃ h, CreateHeader c [{ revisionField c g with Bytes := bs }, t] = .ok h
      ∧ h.Revision = intOfFloat c g
      ∧ h.NumMeta1Entries = (if t.IsObject then 1 else 0)
      ∧ h.Meta1Size = (if t.IsObject then 1 else 0) <<< 4
      ∧ h.NumMeta2Entries = 1
      ∧ h.DataOffset = 64 + ((if t.IsObject then 1 else 0) <<< 4) + 12
      ∧ h.DataLength = dataLengthStep 0 t := by
  obtain ⟨h, hh, hrev⟩ := CreateHeader_returns c { revisionField c g with Bytes := bs } [t] g
    rfl rfl
  obtain ⟨-, h1, -, h3, h4, h5, -, h7, h8⟩ := CreateHeader_ok c _ _ h hh
  have hr : RemoveRevisionField c [{ revisionField c g with Bytes := bs }, t] = [t] := by
    rw [RemoveRevisionField_cons_revision c _ _ rfl]
    simp [isNonRevision, ht]
  rw [hr] at h3 h5 h7
  have h3' : h.NumMeta1Entries = (if t.IsObject then 1 else 0) := by
    rw [h3]
    cases hobj : t.IsObject <;> simp [List.countP_cons, hobj]
  refine ⟨h, hh, hrev, h3', ?_, h5, ?_, h7⟩
  · rw [h4, h3']
  · rw [h8, h1, h4, h3', h5]
    rfl

/-- C8: with the marker as first key, `DataLength` is the left fold, from 0 and in order,
over the non-revision fields of the step that rounds `r + len(Key) + 1` up to a multiple of
4 and adds `len(Bytes)` when `len(Bytes) ≥ 4`, and adds `len(Key) + 1 + len(Bytes)` to `r`
otherwise. The list `[revision = 0, {"foo", Bool, true}]` passed through `EncodeValues` and
`CreateHeader` gives `Revision` 0, `NumMeta1Entries` 0, `NumMeta2Entries` 1, `DataOffset` 76
and `DataLength` 5 (the marker name not being `"foo"`), and a single float field with a
3-character key gives `DataLength` 8. -/
theorem CreateHeader_DataLength (c : Collab) (firstField : EncodingField)
    (rest : List EncodingField) (h : Header) (k : GoString) (f g : Float64)
    (hfirst : firstField.Key = c.FieldNameRevision)
    (hh : CreateHeader c (firstField :: rest) = .ok h)
    (hfoo : fooName ≠ c.FieldNameRevision)
    (hk : k.length = 3) (hkr : k ≠ c.FieldNameRevision) :
    h.DataLength = ((firstField :: rest).filter (isNonRevision c)).foldl dataLengthSpecStep 0
    ∧ (∃ encoded h1,
        EncodeValues c [revisionField c (.finite 0 0), fooField] = .ok encoded
        ∧ CreateHeader c encoded = .ok h1
        ∧ h1.Revision = 0 ∧ h1.NumMeta1Entries = 0 ∧ h1.Meta1Size = 0
        ∧ h1.NumMeta2Entries = 1 ∧ h1.DataOffset = 76 ∧ h1.DataLength = 5)
    ∧ (∃ encoded h2,
        EncodeValues c [revisionField c g, plainField k .Float (.float64 f)] = .ok encoded
        ∧ CreateHeader c encoded = .ok h2
        ∧ h2.DataLength = 8) := by
  refine ⟨?_, ?_, ?_⟩
  · obtain ⟨-, -, -, -, -, -, -, h7, -⟩ := CreateHeader_ok c _ _ h hh
    rw [h7, foldl_dataLengthStep_eq_spec, RemoveRevisionField_cons_revision c _ _ hfirst]
    rw [List.filter_cons]
    simp [isNonRevision, hfirst]
  · obtain ⟨h1, e1, e2, e3, e4, e5, e6, e7⟩ := CreateHeader_pair c (.finite 0 0)
      (EncodeValueInt c (.float64 (.finite 0 0))) (encodedField c fooField) hfoo
    refine ⟨_, h1, rfl, e1, ?_, e3, e4, e5, e6, e7⟩
    rw [e2]
    rfl
  · obtain ⟨h2, e1, -, -, -, -, -, e7⟩ := CreateHeader_pair c g
      (EncodeValueInt c (.float64 g)) (encodedField c (plainField k .Float (.float64 f))) hkr
    refine ⟨_, h2, rfl, e1, ?_⟩
    rw [e7, dataLengthStep_eq_spec]
    show dataLengthSpecStep 0 (encodedField c (plainField k .Float (.float64 f))) = 8
    simp [dataLengthSpecStep, encodedField, plainField, EncodeValue, dispatchMap,
      EncodeValueFloat, Outcome.bytesOrNil, PutUint32, hk]

/-- The fold of C8 for `[revision = 0, foo, obj]` after encoding (5 bytes for `foo`, 4 for
the key of `obj`), and the two scenarios with `"__revision"` as the marker and `"bar"` as the
3-character key. -/
theorem CreateHeader_DataLength_witness :
    ((revisionField sampleCollab (.finite 0 0)).Key = sampleCollab.FieldNameRevision
      ∧ fooName ≠ sampleCollab.FieldNameRevision
      ∧ ([98, 97, 114] : GoString).length = 3
      ∧ ([98, 97, 114] : GoString) ≠ sampleCollab.FieldNameRevision)
    ∧ (∃ h, CreateHeader sampleCollab
          [revisionField sampleCollab (.finite 0 0), encodedField sampleCollab fooField,
            encodedField sampleCollab objField] = .ok h
        ∧ h.DataLength = 9)
    ∧ (∃ encoded h2,
        EncodeValues sampleCollab
          [revisionField sampleCollab (.finite 0 0),
            plainField [98, 97, 114] .Float (.float64 (.finite 3 (-1)))] = .ok encoded
        ∧ CreateHeader sampleCollab encoded = .ok h2
        ∧ h2.DataLength = 8) := by
  obtain ⟨h, hh, -⟩ := CreateHeader_returns sampleCollab
    (revisionField sampleCollab (.finite 0 0))
    [encodedField sampleCollab fooField, encodedField sampleCollab objField] (.finite 0 0)
    rfl rfl
  have key := CreateHeader_DataLength sampleCollab _ _ h [98, 97, 114] (.finite 3 (-1))
    (.finite 0 0) rfl hh (by decide) (by decide) (by decide)
  refine ⟨⟨rfl, by decide, by decide, by decide⟩, ⟨h, hh, ?_⟩, key.2.2⟩
  rw [key.1]
  decide

/-! ## Dispatch on the type tag -/

theorem dispatchMap_registered (c : Collab) (t : DataType) (ht : t ∈ registeredTags) :
    ∃ fn, dispatchMap c t = some fn := by
  simp only [registeredTags, List.mem_cons, List.mem_singleton, List.not_mem_nil,
    or_false] at ht
  rcases ht with h | h | h | h | h | h | h | h | h | h | h | h | h | h | h | h <;>
    subst h <;> exact ⟨_, rfl⟩

theorem dispatchMap_unregistered (c : Collab) (t : DataType) (ht : t ∉ registeredTags) :
    dispatchMap c t = none := by
  cases t <;> first | rfl | (exact absurd (by decide) ht)

theorem EncodeValue_of_dispatch (c : Collab) (key : GoString) (t : DataType) (value : Value)
    (fn : EncodeFunc) (ht : dispatchMap c t = some fn) :
    EncodeValue c key t value = Outcome.ofEncoder (fn value) := by
  simp only [EncodeValue, ht, Outcome.ofEncoder]

theorem EncodeValue_unregistered (c : Collab) (key : GoString) (t : DataType) (value : Value)
    (ht : t ∉ registeredTags) :
    EncodeValue c key t value = .error { Key := key, ValueType := t, Value := value } := by
  simp only [EncodeValue, dispatchMap_unregistered c t ht]

theorem EncodeValue_registered (c : Collab) (key : GoString) (t : DataType) (value : Value)
    (ht : t ∈ registeredTags) (hp : EncodeValue c key t value ≠ .panic) :
    ∃ bs, EncodeValue c key t value = .ok bs := by
  obtain ⟨fn, hfn⟩ := dispatchMap_registered c t ht
  rw [EncodeValue_of_dispatch c key t value fn hfn] at hp ⊢
  cases hv : fn value with
  | none => simp [hv, Outcome.ofEncoder] at hp
  | some bs => exact ⟨bs, by simp [Outcome.ofEncoder]⟩

/-- C9: `EncodeValue` returns an error if and only if the tag is not one of the registered
tags, and the error is `ErrNoEncodeFunc` with the key, tag and value of the call (and no
bytes); for the tags `Unknown`, `FileRaw`, `FileDecoded`, `FileJSON` and `Object` it returns
an empty payload and no error, for every key and value; for every other registered tag it
returns what the encoder function of that tag returns. -/
theorem EncodeValue_dispatch (c : Collab) (key : GoString) (valueType : DataType)
    (value : Value) :
    ((∃ e, EncodeValue c key valueType value = .error e) ↔ valueType ∉ registeredTags)
    ∧ (∀ e, EncodeValue c key valueType value = .error e
        → e = { Key := key, ValueType := valueType, Value := value })
    ∧ (EncodeValue c key .Unknown value = .ok []
      ∧ EncodeValue c key .FileRaw value = .ok []
      ∧ EncodeValue c key .FileDecoded value = .ok []
      ∧ EncodeValue c key .FileJSON value = .ok []
      ∧ EncodeValue c key .Object value = .ok [])
    ∧ (EncodeValue c key .Bool value = Outcome.ofEncoder (EncodeValueBool value)
      ∧ EncodeValue c key .Char value = Outcome.ofEncoder (EncodeValueChar value)
      ∧ EncodeValue c key .Int value = .ok (EncodeValueInt c value)
      ∧ EncodeValue c key .Float value = Outcome.ofEncoder (EncodeValueFloat c value)
      ∧ EncodeValue c key .String value = Outcome.ofEncoder (EncodeValueString c value)
      ∧ EncodeValue c key .IntVector value
          = Outcome.ofEncoder (EncodeValueIntVector c value)
      ∧ EncodeValue c key .FloatVector value
          = Outcome.ofEncoder (EncodeValueFloatVector c value)
      ∧ EncodeValue c key .StringVector value
          = Outcome.ofEncoder (EncodeValueStringVector c value)
      ∧ EncodeValue c key .HybridVector value
          = Outcome.ofEncoder (EncodeValueHybridVector c value)
      ∧ EncodeValue c key .TwoBool value = Outcome.ofEncoder (EncodeValueTwoBool value)
      ∧ EncodeValue c key .TwoInt value
          = Outcome.ofEncoder (EncodeValueTwoInt c value)) := by
  have hof : ∀ (fn : EncodeFunc) (t : DataType), dispatchMap c t = some fn →
      EncodeValue c key t value = Outcome.ofEncoder (fn value) :=
    fun fn t ht => EncodeValue_of_dispatch c key t value fn ht
  refine ⟨⟨?_, ?_⟩, ?_, ⟨rfl, rfl, rfl, rfl, rfl⟩,
    ⟨hof _ _ rfl, hof _ _ rfl, rfl, hof _ _ rfl, hof _ _ rfl, hof _ _ rfl, hof _ _ rfl,
      hof _ _ rfl, hof _ _ rfl, hof _ _ rfl, hof _ _ rfl⟩⟩
  · rintro ⟨e, he⟩ hmem
    obtain ⟨fn, hfn⟩ := dispatchMap_registered c valueType hmem
    rw [hof fn valueType hfn] at he
    cases hv : fn value <;> simp [hv, Outcome.ofEncoder] at he
  · intro hn
    exact ⟨{ Key := key, ValueType := valueType, Value := value },
      EncodeValue_unregistered c key valueType value hn⟩
  · intro e he
    cases hd : dispatchMap c valueType with
    | none =>
      simp only [EncodeValue, hd, Outcome.error.injEq] at he
      exact he.symm
    | some fn =>
      rw [hof fn valueType hd] at he
      cases hv : fn value <;> simp [hv, Outcome.ofEncoder] at he

/-- The dispatch of C9 at an unregistered tag and at the tag `Bool`. -/
theorem EncodeValue_dispatch_witness :
    DataType.unregistered [120] ∉ registeredTags
    ∧ EncodeValue sampleCollab fooName (.unregistered [120]) (.bool true)
        = .error { Key := fooName, ValueType := .unregistered [120], Value := .bool true }
    ∧ EncodeValue sampleCollab fooName .Bool (.bool true) = .ok [1] := by
  have key := EncodeValue_dispatch sampleCollab fooName (.unregistered [120]) (.bool true)
  obtain ⟨e, he⟩ := key.1.mpr (by decide)
  have hE := key.2.1 e he
  subst hE
  exact ⟨by decide, he, key.2.2.2.1⟩

/-! ## `EncodeValues` as a whole -/

theorem EncodeValues_loop_error (c : Collab) (bad : EncodingField)
    (post : List EncodingField) (hbad : bad.ValueType ∉ registeredTags) :
    ∀ (pre acc : List EncodingField),
      (∀ f ∈ pre, f.ValueType ∈ registeredTags) →
      (∀ f ∈ pre, EncodeValue c f.Key f.ValueType f.Value ≠ .panic) →
      EncodeValues.loop c acc (pre ++ bad :: post)
        = .error { Key := bad.Key, ValueType := bad.ValueType, Value := bad.Value } := by
  intro pre
  induction pre with
  | nil =>
    intro acc _ _
    simp only [List.nil_append, EncodeValues.loop,
      EncodeValue_unregistered c bad.Key bad.ValueType bad.Value hbad]
  | cons f rest ih =>
    intro acc hreg hnp
    obtain ⟨bs, hbs⟩ := EncodeValue_registered c f.Key f.ValueType f.Value
      (hreg f (List.mem_cons_self _ _)) (hnp f (List.mem_cons_self _ _))
    simp only [List.cons_append, EncodeValues.loop, hbs]
    exact ih _ (fun g hg => hreg g (List.mem_cons_of_mem _ hg))
      (fun g hg => hnp g (List.mem_cons_of_mem _ hg))

/-- C10, as the code has it: when `EncodeValues` succeeds, the result has the length and
order of the input, and its i-th field has as `Bytes` the payload `EncodeValue` returns for
the key, tag and value of the i-th input field, has `IsObject` true exactly when that tag is
`Object`, and has `Key`, `ValueType`, `Value`, `NumDirectChildren` and `NumAllChildren`
unchanged. When some field has an unregistered tag and every field before the first such
field is encoded without a runtime failure, `EncodeValues` returns no list and the error of
that first field. -/
theorem EncodeValues_fieldwise (c : Collab) (fs out pre post : List EncodingField)
    (bad : EncodingField) :
    (EncodeValues c fs = .ok out →
      out.length = fs.length
      ∧ ∀ (i : Nat) (f : EncodingField), fs[i]? = some f →
          ∃ g, out[i]? = some g
            ∧ EncodeValue c f.Key f.ValueType f.Value = .ok g.Bytes
            ∧ (g.IsObject = true ↔ f.ValueType = .Object)
            ∧ g.Key = f.Key ∧ g.ValueType = f.ValueType ∧ g.Value = f.Value
            ∧ g.NumDirectChildren = f.NumDirectChildren
            ∧ g.NumAllChildren = f.NumAllChildren)
    ∧ (bad.ValueType ∉ registeredTags →
        (∀ f ∈ pre, f.ValueType ∈ registeredTags) →
        (∀ f ∈ pre, EncodeValue c f.Key f.ValueType f.Value ≠ .panic) →
        EncodeValues c (pre ++ bad :: post)
          = .error { Key := bad.Key, ValueType := bad.ValueType, Value := bad.Value }) := by
  constructor
  · intro h
    obtain ⟨he, hall⟩ := EncodeValues_ok c fs out h
    subst he
    refine ⟨List.length_map _ _, ?_⟩
    intro i f hf
    obtain ⟨bs, hbs⟩ := hall f (List.getElem?_mem hf)
    refine ⟨encodedField c f, ?_, ?_, ?_, rfl, rfl, rfl, rfl, rfl⟩
    · rw [List.getElem?_map, hf]
      rfl
    · simp only [encodedField, hbs, Outcome.bytesOrNil]
    · simp [encodedField]
  · intro hbad hreg hnp
    exact EncodeValues_loop_error c bad post hbad pre [] hreg hnp

/-- The two parts of C10 at `[revision = 0, foo]`, which is encoded field by field, and at
`[foo, bad]`, which gives the error of `bad`. -/
theorem EncodeValues_fieldwise_witness :
    (EncodeValues sampleCollab [revisionField sampleCollab (.finite 0 0), fooField]
        = .ok ([revisionField sampleCollab (.finite 0 0), fooField].map
            (encodedField sampleCollab))
      ∧ ∃ g, ([revisionField sampleCollab (.finite 0 0), fooField].map
            (encodedField sampleCollab))[1]? = some g
          ∧ g.Bytes = [1] ∧ g.Key = fooName)
    ∧ (DataType.unregistered [120] ∉ registeredTags
      ∧ (∀ f ∈ [fooField], f.ValueType ∈ registeredTags)
      ∧ (∀ f ∈ [fooField], EncodeValue sampleCollab f.Key f.ValueType f.Value ≠ .panic)
      ∧ EncodeValues sampleCollab
          ([fooField] ++ plainField [98] (.unregistered [120]) .other :: [objField])
          = .error { Key := [98], ValueType := .unregistered [120], Value := .other }) := by
  have key := EncodeValues_fieldwise sampleCollab
    [revisionField sampleCollab (.finite 0 0), fooField]
    ([revisionField sampleCollab (.finite 0 0), fooField].map (encodedField sampleCollab))
    [fooField] [objField] (plainField [98] (.unregistered [120]) .other)
  have hreg : ∀ f ∈ [fooField], f.ValueType ∈ registeredTags := by
    intro f hf
    rw [List.mem_singleton.mp hf]
    decide
  have hnp : ∀ f ∈ [fooField],
      EncodeValue sampleCollab f.Key f.ValueType f.Value ≠ .panic := by
    intro f hf
    rw [List.mem_singleton.mp hf]
    intro h
    cases h
  obtain ⟨g, hg, hb, -, hk, -⟩ := (key.1 rfl).2 1 fooField rfl
  have hb1 : g.Bytes = [1] := by
    have e : EncodeValue sampleCollab fooField.Key fooField.ValueType fooField.Value
        = .ok [1] := rfl
    rw [e] at hb
    simp only [Outcome.ok.injEq] at hb
    exact hb.symm
  exact ⟨⟨rfl, g, hg, hb1, hk⟩, by decide, hreg, hnp, key.2 (by decide) hreg hnp⟩

/-- C10 as stated fails: in `[{"foo", Bool, ""}, bad]` the second field has an unregistered
tag, but the first one ends `EncodeValueBool` in a runtime failure (its value is not a
`bool`), so `EncodeValues` returns no error at all. -/
theorem EncodeValues_fieldwise_counterexample :
    (∃ f ∈ [plainField fooName .Bool (.string []),
          plainField [98] (.unregistered [120]) .other], f.ValueType ∉ registeredTags)
    ∧ EncodeValues sampleCollab
        [plainField fooName .Bool (.string []),
          plainField [98] (.unregistered [120]) .other] = .panic
    ∧ ¬ ∃ e, EncodeValues sampleCollab
        [plainField fooName .Bool (.string []),
          plainField [98] (.unregistered [120]) .other] = .error e := by
  refine ⟨⟨plainField [98] (.unregistered [120]) .other, by simp, by decide⟩, rfl, ?_⟩
  rintro ⟨e, he⟩
  have hp : EncodeValues sampleCollab
      [plainField fooName .Bool (.string []),
        plainField [98] (.unregistered [120]) .other] = .panic := rfl
  rw [hp] at he
  cases he

/-! ## The packed field information -/

theorem xor_shiftLeft_eq_add (a m k : Nat) (h : a < 2 ^ k) :
    a ^^^ (m <<< k) = a + m * 2 ^ k := by
  apply Nat.eq_of_testBit_eq
  intro j
  have e : a + m * 2 ^ k = 2 ^ k * m + a := by
    rw [Nat.mul_comm, Nat.add_comm]
  rw [e, Nat.testBit_mul_pow_two_add m h j, Nat.testBit_xor, Nat.testBit_shiftLeft]
  by_cases hj : j < k
  · simp [hj, Nat.not_le.mpr hj]
  · have hle : k ≤ j := Nat.le_of_not_lt hj
    have ha : a.testBit j = false :=
      Nat.testBit_lt_two_pow (Nat.lt_of_lt_of_le h (Nat.pow_le_pow_right (by decide) hle))
    simp [hj, ha, hle]

theorem shiftLeft_xor_shiftLeft (a b k : Nat) : (a <<< k) ^^^ (b <<< k) = (a ^^^ b) <<< k := by
  apply Nat.eq_of_testBit_eq
  intro j
  simp only [Nat.testBit_xor, Nat.testBit_shiftLeft]
  by_cases hj : k ≤ j <;> simp [hj]

theorem uint64OfInt_natCast (a : Nat) (h : a < 2 ^ 64) : uint64OfInt (a : Int) = a := by
  unfold uint64OfInt
  omega

theorem int64OfUint64_small (u : Nat) (h : u < 2 ^ 63) : int64OfUint64 u = (u : Int) := by
  unfold int64OfUint64
  have e : u % 2 ^ 64 = u := Nat.mod_eq_of_lt (by omega)
  rw [e, if_pos h]

theorem xorInt_natCast (a b : Nat) (ha : a < 2 ^ 63) (hb : b < 2 ^ 63) :
    xorInt (a : Int) (b : Int) = ((a ^^^ b : Nat) : Int) := by
  unfold xorInt
  rw [uint64OfInt_natCast a (by omega), uint64OfInt_natCast b (by omega),
    int64OfUint64_small _ (Nat.xor_lt_two_pow ha hb)]

theorem shiftLeftInt_natCast (a k : Nat) (h : a * 2 ^ k < 2 ^ 63) :
    shiftLeftInt (a : Int) k = ((a * 2 ^ k : Nat) : Int) := by
  have hpos : 0 < 2 ^ k := Nat.two_pow_pos k
  have ha : a < 2 ^ 64 := by
    have : a * 1 ≤ a * 2 ^ k := Nat.mul_le_mul_left a hpos
    omega
  unfold shiftLeftInt
  rw [uint64OfInt_natCast a ha, Nat.shiftLeft_eq, int64OfUint64_small _ h]

theorem addInt_natCast (a b : Nat) (h : a + b < 2 ^ 63) :
    addInt (a : Int) (b : Int) = ((a + b : Nat) : Int) := by
  unfold addInt
  have e : ((a : Int) + (b : Int)) = ((a + b : Nat) : Int) := by omega
  rw [e, uint64OfInt_natCast _ (by omega), int64OfUint64_small _ h]

/-- The three exclusive-or steps on natural numbers: the flag, four times the low nine bits of
the name length, and 2048 times the count combined with what the name length has above its
low nine bits. -/
theorem pack_eq_sum (b l n : Nat) (hb : b < 2) :
    (b ^^^ (l <<< 2)) ^^^ (n <<< 11) = b + 4 * (l % 512) + 2048 * ((l / 512) ^^^ n) := by
  have h1 : b ^^^ (l <<< 2) = b + l * 2 ^ 2 := xor_shiftLeft_eq_add b l 2 (by omega)
  have h2 : b + l * 2 ^ 2 = (b + 4 * (l % 512)) + (l / 512) * 2 ^ 11 := by omega
  have h3 : (b + 4 * (l % 512)) + (l / 512) * 2 ^ 11
      = (b + 4 * (l % 512)) ^^^ ((l / 512) <<< 11) :=
    (xor_shiftLeft_eq_add _ _ 11 (by omega)).symm
  rw [h1, h2, h3, Nat.xor_assoc, shiftLeft_xor_shiftLeft,
    xor_shiftLeft_eq_add _ _ 11 (by omega)]
  omega

/-- The packed integer where nothing leaves the 64 bits: a name length below `2^61` and a
count below `2^52`. -/
theorem CreateMeta2Entry_FieldInfo_eq (c : Collab) (offset : Int) (n : Nat)
    (field : EncodingField) (hl : field.Key.length + 1 < 2 ^ 61) (hn : n < 2 ^ 52) :
    (CreateMeta2Entry c offset (n : Int) field).FieldInfo
      = (((if field.IsObject then 1 else 0) + 4 * ((field.Key.length + 1) % 512)
          + 2048 * (((field.Key.length + 1) / 512) ^^^ n) : Nat) : Int) := by
  have hx : ((field.Key.length + 1) / 512) ^^^ n < 2 ^ 52 :=
    Nat.xor_lt_two_pow (by omega) hn
  have hstep : ∀ b : Nat, b < 2 →
      xorInt (xorInt (b : Int) (shiftLeftInt (addInt (field.Key.length : Int) (1 : Nat)) 2))
          (shiftLeftInt (n : Int) 11)
        = ((b + 4 * ((field.Key.length + 1) % 512)
            + 2048 * (((field.Key.length + 1) / 512) ^^^ n) : Nat) : Int) := by
    intro b hb
    have e0 := pack_eq_sum b (field.Key.length + 1) n hb
    have e1 : b ^^^ ((field.Key.length + 1) * 2 ^ 2) < 2 ^ 63 :=
      Nat.xor_lt_two_pow (by omega) (by omega)
    rw [addInt_natCast _ _ (by omega), shiftLeftInt_natCast _ 2 (by omega),
      shiftLeftInt_natCast n 11 (by omega), xorInt_natCast _ _ (by omega) (by omega),
      xorInt_natCast _ _ e1 (by omega)]
    rw [Nat.shiftLeft_eq, Nat.shiftLeft_eq] at e0
    rw [e0]
  unfold CreateMeta2Entry
  cases hobj : field.IsObject
  · have h := hstep 0 (by omega)
    simpa using h
  · have h := hstep 1 (by omega)
    have hone : xorInt 0 1 = 1 := by decide
    simpa [hone] using h

/-- C11, as the code has it: for a field whose key has at most 510 bytes and a running object
count `k` with `0 ≤ k < 2^52`, `CreateMeta2Entry` returns an entry with the given offset,
with the hash of the key followed by a NUL byte as `NameHash`, and with `FieldInfo` equal to
the object flag plus `4 * (len(Key) + 1)` plus `2048 * k`; so the flag is bit 0,
`len(Key) + 1` is bits 2..10, `k` is bits 11 and above, and bit 1 is 0. -/
theorem CreateMeta2Entry_packed (c : Collab) (offset k : Int) (field : EncodingField)
    (hk : field.Key.length ≤ 510) (h0 : 0 ≤ k) (h52 : k < 2 ^ 52) :
    (CreateMeta2Entry c offset k field).Offset = offset
    ∧ (CreateMeta2Entry c offset k field).NameHash = c.HashString (field.Key ++ [0]) % 2 ^ 32
    ∧ (CreateMeta2Entry c offset k field).FieldInfo
        = (if field.IsObject then 1 else 0) + 4 * ((field.Key.length : Int) + 1) + 2048 * k
    ∧ (CreateMeta2Entry c offset k field).FieldInfo % 2 = (if field.IsObject then 1 else 0)
    ∧ (CreateMeta2Entry c offset k field).FieldInfo / 2 % 2 = 0
    ∧ (CreateMeta2Entry c offset k field).FieldInfo / 4 % 512 = (field.Key.length : Int) + 1
    ∧ (CreateMeta2Entry c offset k field).FieldInfo / 2048 = k := by
  obtain ⟨n, rfl⟩ := Int.eq_ofNat_of_zero_le h0
  have hn : n < 2 ^ 52 := by omega
  have h := CreateMeta2Entry_FieldInfo_eq c offset n field (by omega) hn
  have hlo : (field.Key.length + 1) % 512 = field.Key.length + 1 :=
    Nat.mod_eq_of_lt (by omega)
  have hhi : (field.Key.length + 1) / 512 = 0 := Nat.div_eq_of_lt (by omega)
  rw [hlo, hhi, Nat.zero_xor] at h
  refine ⟨rfl, rfl, ?_, ?_, ?_, ?_, ?_⟩ <;> rw [h] <;> split_ifs <;> omega

/-- The entry of C11 for an object field with the key `"obj"` at offset 12 and count 3. -/
theorem CreateMeta2Entry_packed_witness :
    (({ objField with IsObject := true } : EncodingField).Key.length ≤ 510
      ∧ (0 : Int) ≤ 3 ∧ (3 : Int) < 2 ^ 52)
    ∧ (CreateMeta2Entry sampleCollab 12 3 { objField with IsObject := true }).FieldInfo = 6161
    ∧ (CreateMeta2Entry sampleCollab 12 3 { objField with IsObject := true }).FieldInfo / 2048
        = 3 := by
  have h := CreateMeta2Entry_packed sampleCollab 12 3 { objField with IsObject := true }
    (by decide) (by decide) (by decide)
  exact ⟨⟨by decide, by decide, by decide⟩, h.2.2.1, h.2.2.2.2.2.2⟩

/-- C11 as stated fails: for the field `"foo"` and the count `2^52`, which is not negative,
the shift by 11 reaches the sign bit, so `FieldInfo` is `16 - 2^63` and not
`4 * 4 + 2048 * 2^52`, and bits 11 and above are `-2^52` and not the count. -/
theorem CreateMeta2Entry_packed_counterexample :
    fooField.Key.length ≤ 510 ∧ (0 : Int) ≤ 2 ^ 52
    ∧ (CreateMeta2Entry sampleCollab 0 (2 ^ 52) fooField).FieldInfo = 16 - 2 ^ 63
    ∧ (CreateMeta2Entry sampleCollab 0 (2 ^ 52) fooField).FieldInfo
        ≠ 0 + 4 * ((fooField.Key.length : Int) + 1) + 2048 * 2 ^ 52
    ∧ (CreateMeta2Entry sampleCollab 0 (2 ^ 52) fooField).FieldInfo / 2048 ≠ 2 ^ 52 := by
  refine ⟨by decide, by decide, by decide, by decide, by decide⟩

/-- C12, as the code has it: for every field whose key has fewer than `2^61 - 1` bytes and
every count `k` with `0 ≤ k < 2^52`, bit 0 of `FieldInfo` is the object flag, bit 1 is 0,
bits 2..10 are the low nine bits of `len(Key) + 1`, and bits 11 and above are `k` combined
by exclusive or with what `len(Key) + 1` has above its low nine bits. For a key of at most
510 bytes these are the flag, `len(Key) + 1` and `k`: only then do the three components not
overlap. -/
theorem CreateMeta2Entry_bits (c : Collab) (offset : Int) (n : Nat) (field : EncodingField)
    (hl : field.Key.length + 1 < 2 ^ 61) (hn : n < 2 ^ 52) :
    (CreateMeta2Entry c offset (n : Int) field).FieldInfo % 2
        = (if field.IsObject then 1 else 0)
    ∧ (CreateMeta2Entry c offset (n : Int) field).FieldInfo / 2 % 2 = 0
    ∧ (CreateMeta2Entry c offset (n : Int) field).FieldInfo / 4 % 512
        = (((field.Key.length + 1) % 512 : Nat) : Int)
    ∧ (CreateMeta2Entry c offset (n : Int) field).FieldInfo / 2048
        = ((((field.Key.length + 1) / 512) ^^^ n : Nat) : Int)
    ∧ (field.Key.length ≤ 510 →
        (CreateMeta2Entry c offset (n : Int) field).FieldInfo / 4 % 512
          = (field.Key.length : Int) + 1
        ∧ (CreateMeta2Entry c offset (n : Int) field).FieldInfo / 2048 = (n : Int)) := by
  have h := CreateMeta2Entry_FieldInfo_eq c offset n field hl hn
  have h3 : (CreateMeta2Entry c offset (n : Int) field).FieldInfo / 4 % 512
      = (((field.Key.length + 1) % 512 : Nat) : Int) := by
    rw [h]
    split_ifs <;> omega
  have h4 : (CreateMeta2Entry c offset (n : Int) field).FieldInfo / 2048
      = ((((field.Key.length + 1) / 512) ^^^ n : Nat) : Int) := by
    rw [h]
    split_ifs <;> omega
  refine ⟨?_, ?_, h3, h4, ?_⟩
  · rw [h]
    split_ifs <;> omega
  · rw [h]
    split_ifs <;> omega
  · intro hk
    have hlo : (field.Key.length + 1) % 512 = field.Key.length + 1 :=
      Nat.mod_eq_of_lt (by omega)
    have hhi : (field.Key.length + 1) / 512 = 0 := Nat.div_eq_of_lt (by omega)
    rw [h3, h4, hlo, hhi, Nat.zero_xor]
    exact ⟨by omega, rfl⟩

/-- The bits of C12 for the boolean field `"foo"` at count 5. -/
theorem CreateMeta2Entry_bits_witness :
    (fooField.Key.length + 1 < 2 ^ 61 ∧ 5 < 2 ^ 52 ∧ fooField.Key.length ≤ 510)
    ∧ (CreateMeta2Entry sampleCollab 0 5 fooField).FieldInfo / 4 % 512 = 4
    ∧ (CreateMeta2Entry sampleCollab 0 5 fooField).FieldInfo / 2048 = 5 := by
  have h := (CreateMeta2Entry_bits sampleCollab 0 5 fooField (by decide) (by decide)).2.2.2.2
    (by decide)
  exact ⟨⟨by decide, by decide, by decide⟩, h.1, h.2⟩

/-- C12 as stated fails: for a key of 511 bytes and count 0 the name length 512 lands in
bit 11, so bits 2..10 are 0 and not `len(Key) + 1`, and bits 11 and above are 1 and not the
count; and for the key `"foo"` and the count `2^52` the count leaves the 64 bits, so bits 11
and above are `-2^52` and not the count. -/
theorem CreateMeta2Entry_bits_counterexample :
    (longKeyField.Key.length = 511
      ∧ (CreateMeta2Entry sampleCollab 0 0 longKeyField).FieldInfo = 2048
      ∧ (CreateMeta2Entry sampleCollab 0 0 longKeyField).FieldInfo / 4 % 512
          ≠ (longKeyField.Key.length : Int) + 1
      ∧ (CreateMeta2Entry sampleCollab 0 0 longKeyField).FieldInfo / 2048 ≠ 0)
    ∧ ((0 : Int) ≤ 2 ^ 52
      ∧ (CreateMeta2Entry sampleCollab 0 (2 ^ 52) fooField).FieldInfo / 2048 = -2 ^ 52
      ∧ (CreateMeta2Entry sampleCollab 0 (2 ^ 52) fooField).FieldInfo / 2048 ≠ 2 ^ 52) := by
  have hl : longKeyField.Key.length = 511 := List.length_replicate 511 _
  have hf : (CreateMeta2Entry sampleCollab 0 0 longKeyField).FieldInfo = 2048 := by
    have h := CreateMeta2Entry_FieldInfo_eq sampleCollab 0 0 longKeyField
      (by rw [hl]; decide) (by decide)
    rw [hl] at h
    rw [show ((0 : Nat) : Int) = 0 from rfl] at h
    rw [h]
    decide
  refine ⟨⟨hl, hf, ?_, ?_⟩, by decide, by decide, by decide⟩
  · rw [hf, hl]
    decide
  · rw [hf]
    decide

/-! ## Child counts -/

theorem map_Zip2_eq_zipWith {α β γ : Type} (zeroA : α) (zeroB : β) (g : α → β → γ) :
    ∀ (as : List α) (bs : List β), as.length = bs.length →
      (Zip2 zeroA zeroB as bs).map (fun t => g t.1 t.2) = List.zipWith g as bs := by
  intro as
  induction as with
  | nil =>
    intro bs h
    cases bs with
    | nil => simp [Zip2]
    | cons b bs => simp at h
  | cons a as ih =>
    intro bs h
    cases bs with
    | nil => simp at h
    | cons b bs =>
      simp only [Zip2, List.map_cons, List.zipWith_cons_cons]
      rw [ih bs (by simpa using h)]

/-- C13: for a field list and a list of integers of the same length, `SetNumDirectChildren`
returns a list of that length whose i-th field is the i-th input field with
`NumDirectChildren` replaced by the i-th integer and every other attribute unchanged, and
`SetNumAllChildren` does the same with `NumAllChildren`. Both are functions of their
arguments: they build a new list and leave the input as it is. -/
theorem SetNumChildren_frame (zeroType : DataType) (fs : List EncodingField) (ns : List Int)
    (hlen : fs.length = ns.length) :
    ((SetNumDirectChildren zeroType fs ns).length = fs.length
      ∧ ∀ (i : Nat) (f : EncodingField) (k : Int), fs[i]? = some f → ns[i]? = some k →
          ∃ g, (SetNumDirectChildren zeroType fs ns)[i]? = some g
            ∧ g = { f with NumDirectChildren := k }
            ∧ g.NumDirectChildren = k
            ∧ g.Key = f.Key ∧ g.ValueType = f.ValueType ∧ g.Value = f.Value
            ∧ g.Bytes = f.Bytes ∧ g.IsObject = f.IsObject
            ∧ g.NumAllChildren = f.NumAllChildren)
    ∧ ((SetNumAllChildren zeroType fs ns).length = fs.length
      ∧ ∀ (i : Nat) (f : EncodingField) (k : Int), fs[i]? = some f → ns[i]? = some k →
          ∃ g, (SetNumAllChildren zeroType fs ns)[i]? = some g
            ∧ g = { f with NumAllChildren := k }
            ∧ g.NumAllChildren = k
            ∧ g.Key = f.Key ∧ g.ValueType = f.ValueType ∧ g.Value = f.Value
            ∧ g.Bytes = f.Bytes ∧ g.IsObject = f.IsObject
            ∧ g.NumDirectChildren = f.NumDirectChildren) := by
  have hd : SetNumDirectChildren zeroType fs ns
      = List.zipWith (fun f k => { f with NumDirectChildren := k }) fs ns := by
    unfold SetNumDirectChildren
    exact map_Zip2_eq_zipWith (zeroEncodingField zeroType) (0 : Int)
      (fun (f : EncodingField) (k : Int) => { f with NumDirectChildren := k }) fs ns hlen
  have ha : SetNumAllChildren zeroType fs ns
      = List.zipWith (fun f k => { f with NumAllChildren := k }) fs ns := by
    unfold SetNumAllChildren
    exact map_Zip2_eq_zipWith (zeroEncodingField zeroType) (0 : Int)
      (fun (f : EncodingField) (k : Int) => { f with NumAllChildren := k }) fs ns hlen
  refine ⟨⟨?_, ?_⟩, ⟨?_, ?_⟩⟩
  · rw [hd, List.length_zipWith, ← hlen, Nat.min_self]
  · intro i f k hf hk
    refine ⟨{ f with NumDirectChildren := k }, ?_, rfl, rfl, rfl, rfl, rfl, rfl, rfl, rfl⟩
    rw [hd, List.getElem?_zipWith_eq_some]
    exact ⟨f, k, hf, hk, rfl⟩
  · rw [ha, List.length_zipWith, ← hlen, Nat.min_self]
  · intro i f k hf hk
    refine ⟨{ f with NumAllChildren := k }, ?_, rfl, rfl, rfl, rfl, rfl, rfl, rfl, rfl⟩
    rw [ha, List.getElem?_zipWith_eq_some]
    exact ⟨f, k, hf, hk, rfl⟩

/-- The child counts of C13 for `[foo, obj]` and `[0, 7]`. -/
theorem SetNumChildren_frame_witness :
    [fooField, objField].length = ([0, 7] : List Int).length
    ∧ (SetNumDirectChildren .Unknown [fooField, objField] [0, 7]).length = 2
    ∧ (SetNumDirectChildren .Unknown [fooField, objField] [0, 7])[1]?
        = some { objField with NumDirectChildren := 7 }
    ∧ (SetNumAllChildren .Unknown [fooField, objField] [0, 7])[1]?
        = some { objField with NumAllChildren := 7 } := by
  have key := SetNumChildren_frame .Unknown [fooField, objField] [0, 7] rfl
  obtain ⟨g, hg, he, -⟩ := key.1.2 1 objField 7 rfl rfl
  obtain ⟨g2, hg2, he2, -⟩ := key.2.2 1 objField 7 rfl rfl
  exact ⟨rfl, key.1.1, he ▸ hg, he2 ▸ hg2⟩

/-! ## The two-element and the vector encoders -/

/-- C14, at the inputs where the code departs from it: with three elements
`EncodeValueTwoInt` and `EncodeValueTwoBool` (for a `[]bool` and for a `[]any`) return the
eight bytes of the first two elements and no runtime failure; with one element they fail. -/
theorem EncodeValueTwo_three_elements :
    EncodeValueTwoInt sampleCollab (.float64s [.finite 1 0, .finite 2 0, .finite 3 0])
      = some [1, 0, 0, 0, 2, 0, 0, 0]
    ∧ EncodeValueTwoBool (.bools [true, false, true]) = some [1, 0, 0, 0, 0, 0, 0, 0]
    ∧ EncodeValueTwoBool (.anys [.bool true, .bool false, .bool true])
        = some [1, 0, 0, 0, 0, 0, 0, 0]
    ∧ EncodeValueTwoInt sampleCollab (.float64s [.finite 1 0]) = none
    ∧ EncodeValueTwoBool (.bools [true]) = none := by
  refine ⟨by decide, by decide, by decide, by decide, by decide⟩

theorem EncodeValueString_eq (c : Collab) (s : GoString) :
    EncodeValueString c (.string s) = some (stringBytes c s) := by
  by_cases h : hashSentinel.isPrefixOf s = true
  · simp only [EncodeValueString, stringBytes, h, if_true, EncodeValueInt, Nat.mod_mod]
  · simp only [EncodeValueString, stringBytes, h, if_false, EncodeValueInt,
      Bool.false_eq_true]

theorem EncodeValueHybrid_eq (c : Collab) (v : Value) :
    EncodeValueHybrid c v = some (hybridBytes c v) := by
  cases v <;> first | rfl | exact EncodeValueString_eq c _

theorem foldl_append_eq {α : Type} (f : α → List Byte) (xs : List α) (init : List Byte) :
    xs.foldl (fun bs x => bs ++ f x) init = init ++ (xs.map f).flatten := by
  induction xs generalizing init with
  | nil => simp
  | cons x rest ih => simp [ih, List.append_assoc]

theorem foldlM_append_eq {α : Type} (g : α → Option (List Byte)) (f : α → List Byte)
    (hg : ∀ x, g x = some (f x)) (xs : List α) (init : List Byte) :
    xs.foldlM (fun bs x => (g x).map (fun e => bs ++ e)) init
      = some (init ++ (xs.map f).flatten) := by
  have hfun : (fun (bs : List Byte) (x : α) => (g x).map (fun e => bs ++ e))
      = fun bs x => some (bs ++ f x) := by
    funext bs x
    rw [hg x]
    rfl
  rw [hfun]
  induction xs generalizing init with
  | nil => simp
  | cons x rest ih => simp [ih, List.append_assoc]

theorem EncodeValueStringVector_eq (c : Collab) (ss : List GoString) :
    EncodeValueStringVector c (.strings ss)
      = some (PutUint32 (uint32OfInt (ss.length : Int)) ++ (ss.map (stringBytes c)).flatten) := by
  unfold EncodeValueStringVector
  exact foldlM_append_eq (fun s => EncodeValueString c (.string s)) (stringBytes c)
    (EncodeValueString_eq c) ss _

theorem EncodeValueHybridVector_eq (c : Collab) (vs : List Value) :
    EncodeValueHybridVector c (.anys vs)
      = some (PutUint32 (uint32OfInt (vs.length : Int)) ++ (vs.map (hybridBytes c)).flatten) := by
  unfold EncodeValueHybridVector
  exact foldlM_append_eq (EncodeValueHybrid c) (hybridBytes c) (EncodeValueHybrid_eq c) vs _

theorem EncodeValueIntVector_floats_eq (c : Collab) (xs : List Float64) :
    EncodeValueIntVector c (.float64s xs)
      = some (PutUint32 (uint32OfInt (xs.length : Int))
          ++ (xs.map (fun x => EncodeValueInt c (.float64 x))).flatten) := by
  unfold EncodeValueIntVector
  simp only
  rw [foldl_append_eq (fun x => EncodeValueInt c (.float64 x))]
  rfl

theorem map_hybridBytes_strings (c : Collab) (ss : List GoString) :
    (ss.map Value.string).map (hybridBytes c) = ss.map (stringBytes c) := by
  rw [List.map_map]
  rfl

theorem map_hybridBytes_floats (c : Collab) (xs : List Float64) :
    (xs.map Value.float64).map (hybridBytes c)
      = xs.map (fun x => EncodeValueInt c (.float64 x)) := by
  rw [List.map_map]
  rfl

/-- C15: the vector encoders agree where they defer to one another. For a list of strings,
the Int-vector and the String-vector encoder on the `[]string` and the hybrid and the
String-vector encoder on the same strings as a `[]any` all return the same bytes; for a list
of floats, the Int-vector encoder on the `[]float64` and the hybrid and the Int-vector
encoder on the same floats as a `[]any` all return the same bytes. Each of them returns. -/
theorem vector_encoders_agree (c : Collab) (ss : List GoString) (xs : List Float64) :
    (EncodeValueIntVector c (.strings ss) = EncodeValueStringVector c (.strings ss)
      ∧ EncodeValueStringVector c (.strings ss)
          = EncodeValueHybridVector c (.anys (ss.map Value.string))
      ∧ EncodeValueHybridVector c (.anys (ss.map Value.string))
          = EncodeValueStringVector c (.anys (ss.map Value.string))
      ∧ (EncodeValueStringVector c (.strings ss)).isSome = true)
    ∧ (EncodeValueIntVector c (.float64s xs)
          = EncodeValueHybridVector c (.anys (xs.map Value.float64))
      ∧ EncodeValueHybridVector c (.anys (xs.map Value.float64))
          = EncodeValueIntVector c (.anys (xs.map Value.float64))
      ∧ (EncodeValueIntVector c (.float64s xs)).isSome = true) := by
  refine ⟨⟨rfl, ?_, rfl, ?_⟩, ⟨?_, rfl, ?_⟩⟩
  · rw [EncodeValueStringVector_eq, EncodeValueHybridVector_eq, map_hybridBytes_strings,
      List.length_map]
  · rw [EncodeValueStringVector_eq]
    rfl
  · rw [EncodeValueIntVector_floats_eq, EncodeValueHybridVector_eq, map_hybridBytes_floats,
      List.length_map]
  · rw [EncodeValueIntVector_floats_eq]
    rfl

/-- C16, as the code has it: for a mixed sequence, `EncodeValueHybridVector` returns the
4-byte little-endian count followed by what the elements contribute, in order: a `float64`
its 4-byte Int encoding, a string its String encoding, and an element of any other shape
(also an `int`, `int32` or `uint32`) nothing. So a sequence of `n` floats is encoded in
exactly `4 + 4n` bytes. -/
theorem EncodeValueHybridVector_elements (c : Collab) (vs : List Value) :
    EncodeValueHybridVector c (.anys vs)
      = some (PutUint32 (vs.length % 2 ^ 32) ++ (vs.map (hybridBytes c)).flatten)
    ∧ (∀ f, hybridBytes c (.float64 f) = EncodeValueInt c (.float64 f))
    ∧ (∀ s, EncodeValueString c (.string s) = some (hybridBytes c (.string s)))
    ∧ (∀ n, hybridBytes c (.int n) = [] ∧ hybridBytes c (.int32 n) = [])
    ∧ (∀ u, hybridBytes c (.uint32 u) = [])
    ∧ ((∀ v ∈ vs, ∃ f, v = .float64 f) →
        ∃ bs, EncodeValueHybridVector c (.anys vs) = some bs
          ∧ bs.length = 4 + 4 * vs.length) := by
  have hcount : uint32OfInt (vs.length : Int) = vs.length % 2 ^ 32 := by
    unfold uint32OfInt
    omega
  have hmain := EncodeValueHybridVector_eq c vs
  rw [hcount] at hmain
  refine ⟨hmain, fun _ => rfl, fun s => EncodeValueString_eq c s, fun _ => ⟨rfl, rfl⟩,
    fun _ => rfl, ?_⟩
  intro hall
  refine ⟨_, hmain, ?_⟩
  have hlen : ∀ ws : List Value, (∀ v ∈ ws, ∃ f, v = Value.float64 f) →
      ((ws.map (hybridBytes c)).flatten).length = 4 * ws.length := by
    intro ws
    induction ws with
    | nil => intro _; rfl
    | cons w rest ih =>
      intro hw
      obtain ⟨f, hf⟩ := hw w (List.mem_cons_self _ _)
      have hrest := ih (fun v hv => hw v (List.mem_cons_of_mem _ hv))
      subst hf
      simp only [List.map_cons, List.flatten_cons, List.length_append, hrest,
        List.length_cons, hybridBytes, EncodeValueInt_length]
      omega
  rw [List.length_append, PutUint32_length, hlen vs hall]

/-- The encoding of C16 for the sequence `[1.0, "a"]` and the width for `[1.0, 2.0]`. -/
theorem EncodeValueHybridVector_elements_witness :
    EncodeValueHybridVector sampleCollab (.anys [.float64 (.finite 1 0), .string [97]])
        = some [2, 0, 0, 0, 1, 0, 0, 0, 2, 0, 0, 0, 97, 0]
    ∧ (∀ v ∈ [Value.float64 (.finite 1 0), Value.float64 (.finite 2 0)],
        ∃ f, v = Value.float64 f)
    ∧ ∃ bs, EncodeValueHybridVector sampleCollab
          (.anys [.float64 (.finite 1 0), .float64 (.finite 2 0)]) = some bs
        ∧ bs.length = 4 + 4 * 2 := by
  have h1 := (EncodeValueHybridVector_elements sampleCollab
    [.float64 (.finite 1 0), .string [97]]).1
  have hall : ∀ v ∈ [Value.float64 (.finite 1 0), Value.float64 (.finite 2 0)],
      ∃ f, v = Value.float64 f := by
    intro v hv
    simp only [List.mem_cons, List.mem_singleton, List.not_mem_nil, or_false] at hv
    rcases hv with rfl | rfl
    · exact ⟨_, rfl⟩
    · exact ⟨_, rfl⟩
  have h2 := (EncodeValueHybridVector_elements sampleCollab
    [.float64 (.finite 1 0), .float64 (.finite 2 0)]).2.2.2.2.2 hall
  refine ⟨?_, hall, h2⟩
  rw [h1]
  decide

/-- C16 as stated fails: the one-element sequence `[int 7]` is encoded as the count alone,
four bytes, and not as the count followed by the Int encoding of 7. -/
theorem EncodeValueHybridVector_elements_counterexample :
    EncodeValueHybridVector sampleCollab (.anys [.int 7]) = some [1, 0, 0, 0]
    ∧ EncodeValueInt sampleCollab (.int 7) = [7, 0, 0, 0]
    ∧ EncodeValueHybridVector sampleCollab (.anys [.int 7])
        ≠ some (PutUint32 1 ++ EncodeValueInt sampleCollab (.int 7))
    ∧ ([1, 0, 0, 0] : List Byte).length ≠ 4 + 4 * 1 := by
  refine ⟨by decide, by decide, by decide, by decide⟩

/-! ## Alignment and field order -/

/-- C17: in the data-length fold of `CreateHeader`, with `r` the running total after the
non-revision fields before a field `t`: when the payload of `t` has at least 4 bytes, the
total at which it begins (after the key, its NUL and the padding) is a multiple of 4, and
the padding has fewer than 4 bytes; when it has fewer than 4 bytes, the total after `t` is
`r + len(Key) + 1 + len(Bytes)`, with no padding. -/
theorem dataLength_alignment (c : Collab) (firstField t : EncodingField)
    (rest pre post : List EncodingField) (h : Header)
    (hfirst : firstField.Key = c.FieldNameRevision)
    (hh : CreateHeader c (firstField :: rest) = .ok h)
    (hsplit : rest.filter (isNonRevision c) = pre ++ t :: post) :
    h.DataLength
      = post.foldl dataLengthStep (dataLengthStep (pre.foldl dataLengthStep 0) t)
    ∧ (4 ≤ t.Bytes.length →
        ∃ start, dataLengthStep (pre.foldl dataLengthStep 0) t = start + t.Bytes.length
          ∧ start % 4 = 0
          ∧ pre.foldl dataLengthStep 0 + t.Key.length + 1 ≤ start
          ∧ start < pre.foldl dataLengthStep 0 + t.Key.length + 1 + 4)
    ∧ (t.Bytes.length < 4 →
        dataLengthStep (pre.foldl dataLengthStep 0) t
          = pre.foldl dataLengthStep 0 + t.Key.length + 1 + t.Bytes.length) := by
  obtain ⟨-, -, -, -, -, -, -, h7, -⟩ := CreateHeader_ok c _ _ h hh
  rw [RemoveRevisionField_cons_revision c _ _ hfirst, hsplit, List.foldl_append,
    List.foldl_cons] at h7
  refine ⟨h7, ?_, ?_⟩
  · intro hlen
    refine ⟨NearestDivisibleByM (pre.foldl dataLengthStep 0 + t.Key.length + 1) 4, ?_, ?_, ?_,
      ?_⟩
    · simp only [dataLengthStep, ge_iff_le, hlen, if_true]
    · unfold NearestDivisibleByM
      split_ifs <;> omega
    · unfold NearestDivisibleByM
      split_ifs <;> omega
    · unfold NearestDivisibleByM
      split_ifs <;> omega
  · intro hlen
    have hn : ¬ t.Bytes.length ≥ 4 := by omega
    simp only [dataLengthStep, hn, if_false]

/-- The alignment of C17 for `[revision = 0, a, b]`: the 4-byte payload of `b` begins at 8
after the 3 bytes of `a`, the 2 bytes of its own key and 3 bytes of padding. -/
theorem dataLength_alignment_witness :
    ((revisionField sampleCollab (.finite 0 0)).Key = sampleCollab.FieldNameRevision
      ∧ [shortField, wordField].filter (isNonRevision sampleCollab)
          = [shortField] ++ wordField :: [])
    ∧ (∃ h, CreateHeader sampleCollab
          [revisionField sampleCollab (.finite 0 0), shortField, wordField] = .ok h
        ∧ h.DataLength = 12)
    ∧ 4 ≤ wordField.Bytes.length
    ∧ ∃ start, dataLengthStep ([shortField].foldl dataLengthStep 0) wordField
          = start + wordField.Bytes.length
        ∧ start % 4 = 0 := by
  obtain ⟨h, hh, -⟩ := CreateHeader_returns sampleCollab
    (revisionField sampleCollab (.finite 0 0)) [shortField, wordField] (.finite 0 0) rfl rfl
  have key := dataLength_alignment sampleCollab _ wordField [shortField, wordField]
    [shortField] [] h rfl hh rfl
  obtain ⟨start, hs, hm, -⟩ := key.2.1 (by decide)
  refine ⟨⟨rfl, rfl⟩, ⟨h, hh, ?_⟩, by decide, start, hs, hm⟩
  rw [key.1]
  decide

theorem RemoveRevisionField_perm (c : Collab) (firstField : EncodingField)
    (rest rest2 : List EncodingField) (hp : rest.Perm rest2) :
    (RemoveRevisionField c (firstField :: rest)).Perm
      (RemoveRevisionField c (firstField :: rest2)) := by
  unfold RemoveRevisionField
  exact (List.Perm.cons firstField hp).filter _

/-- C18: the layout assembler is sensitive to field order. For the list
`[revision = 0, a, b]` and its reordering `[revision = 0, b, a]` `CreateHeader` returns the
data lengths 12 and 11; and for every list and every reordering of the fields after the
first, `NumMeta1Entries`, `NumMeta2Entries`, `Meta1Size`, `Meta2Offset` and `DataOffset`
are the same. -/
theorem CreateHeader_order (c : Collab) (firstField : EncodingField)
    (rest rest2 : List EncodingField) (h h2 : Header) (hp : rest.Perm rest2)
    (hh : CreateHeader c (firstField :: rest) = .ok h)
    (hh2 : CreateHeader c (firstField :: rest2) = .ok h2) :
    (∃ g g2, [shortField, wordField].Perm [wordField, shortField]
      ∧ CreateHeader sampleCollab
          [revisionField sampleCollab (.finite 0 0), shortField, wordField] = .ok g
      ∧ CreateHeader sampleCollab
          [revisionField sampleCollab (.finite 0 0), wordField, shortField] = .ok g2
      ∧ g.DataLength = 12 ∧ g2.DataLength = 11 ∧ g.DataLength ≠ g2.DataLength)
    ∧ h.NumMeta1Entries = h2.NumMeta1Entries
    ∧ h.NumMeta2Entries = h2.NumMeta2Entries
    ∧ h.Meta1Size = h2.Meta1Size
    ∧ h.Meta2Offset = h2.Meta2Offset
    ∧ h.DataOffset = h2.DataOffset := by
  obtain ⟨-, a1, a2, a3, a4, a5, a6, -, a8⟩ := CreateHeader_ok c _ _ h hh
  obtain ⟨-, b1, b2, b3, b4, b5, b6, -, b8⟩ := CreateHeader_ok c _ _ h2 hh2
  have hperm := RemoveRevisionField_perm c firstField rest rest2 hp
  have e1 : h.NumMeta1Entries = h2.NumMeta1Entries := by
    rw [a3, b3]
    exact hperm.countP_eq _
  have e2 : h.NumMeta2Entries = h2.NumMeta2Entries := by
    rw [a5, b5]
    exact hperm.length_eq
  have e3 : h.Meta1Size = h2.Meta1Size := by rw [a4, b4, e1]
  refine ⟨⟨_, _, List.Perm.swap _ _ _, rfl, rfl, by decide, by decide, by decide⟩,
    e1, e2, e3, ?_, ?_⟩
  · rw [a6, b6, e3, a2, b2]
  · rw [a8, b8, e3, e2, a1, b1]

/-- The order claim of C18 for `[revision = 0, a, b]` against `[revision = 0, b, a]`. -/
theorem CreateHeader_order_witness :
    [shortField, wordField].Perm [wordField, shortField]
    ∧ ∃ h h2, CreateHeader sampleCollab
          [revisionField sampleCollab (.finite 0 0), shortField, wordField] = .ok h
        ∧ CreateHeader sampleCollab
          [revisionField sampleCollab (.finite 0 0), wordField, shortField] = .ok h2
        ∧ h.DataLength ≠ h2.DataLength
        ∧ h.DataOffset = h2.DataOffset := by
  obtain ⟨h, hh, -⟩ := CreateHeader_returns sampleCollab
    (revisionField sampleCollab (.finite 0 0)) [shortField, wordField] (.finite 0 0) rfl rfl
  obtain ⟨h2, hh2, -⟩ := CreateHeader_returns sampleCollab
    (revisionField sampleCollab (.finite 0 0)) [wordField, shortField] (.finite 0 0) rfl rfl
  have key := CreateHeader_order sampleCollab _ [shortField, wordField]
    [wordField, shortField] h h2 (List.Perm.swap _ _ _) hh hh2
  obtain ⟨g, g2, -, hg, hg2, -, -, hne⟩ := key.1
  rw [hh] at hg
  rw [hh2] at hg2
  simp only [Outcome.ok.injEq] at hg hg2
  subst hg
  subst hg2
  exact ⟨List.Perm.swap _ _ _, h, h2, hh, hh2, hne, key.2.2.2.2.2⟩

/-! ## Short reads -/

theorem getD_append_replicate_zero (rem : List Byte) (m j : Nat) :
    (rem ++ List.replicate m (0 : Byte)).getD j 0 = rem.getD j 0 := by
  induction rem generalizing j with
  | nil =>
    simp only [List.nil_append, List.getD_eq_getElem?_getD, List.getElem?_replicate]
    split_ifs <;> simp
  | cons a rest ih =>
    cases j with
    | zero => simp
    | succ j => simpa using ih j

theorem Read_eof (b : BytesReader) (buf : List Byte) (h : b.Len = 0) :
    b.Read buf = (b, buf, 0, some IOError.EOF) := by
  have : b.s.length ≤ b.i := by
    unfold BytesReader.Len at h
    omega
  simp [BytesReader.Read, this]

theorem Read_ok (b : BytesReader) (buf : List Byte) (h0 : 0 < b.Len) :
    ∃ b1 bs k, b.Read buf = (b1, bs, k, none) := by
  unfold BytesReader.Len at h0
  have h1 : ¬ b.s.length ≤ b.i := by omega
  simp only [BytesReader.Read, h1, if_false]
  exact ⟨_, _, _, rfl⟩

theorem Read_short (b : BytesReader) (buf : List Byte) (h0 : 0 < b.Len)
    (hn : b.Len ≤ buf.length) :
    b.Read buf
      = ({ b with i := b.i + b.Len }, b.s.drop b.i ++ buf.drop b.Len, b.Len, none) := by
  unfold BytesReader.Len at h0 hn ⊢
  have h1 : ¬ b.s.length ≤ b.i := by omega
  have h2 : min buf.length (b.s.length - b.i) = b.s.length - b.i := by omega
  simp only [BytesReader.Read, h1, if_false, List.length_drop, h2]
  rw [List.take_of_length_le (by simp)]

/-- C19: `ReadBytes(n)`, and with it `ReadInt`, `ReadLong` and `ReadString`, returns an error
(`io.EOF`) if and only if no unread byte is left. When at least one but fewer than `n` bytes
are left, `ReadBytes(n)` returns no error and `n` bytes, the bytes that were left followed
by zero bytes, and the reader has no unread byte afterwards; so `ReadInt` with 1 to 3 bytes
left returns the little-endian value of those bytes. -/
theorem ReadBytes_short_read (b : BytesReader) (n : Nat) :
    (((b.ReadBytes n).2.2 = some IOError.EOF ↔ b.Len = 0)
      ∧ (b.ReadInt.2.2 = some IOError.EOF ↔ b.Len = 0)
      ∧ (b.ReadLong.2.2 = some IOError.EOF ↔ b.Len = 0)
      ∧ ((b.ReadString n).2.2 = some IOError.EOF ↔ b.Len = 0))
    ∧ (0 < b.Len → b.Len < n →
        (b.ReadBytes n).2 = (b.s.drop b.i ++ List.replicate (n - b.Len) 0, none)
        ∧ (b.ReadBytes n).2.1.length = n
        ∧ (b.ReadBytes n).1.Len = 0
        ∧ (b.ReadString n).2 = (b.s.drop b.i ++ List.replicate (n - b.Len) 0, none))
    ∧ (0 < b.Len → b.Len < 4 →
        b.ReadInt.2
          = (((((b.s.drop b.i).getD 0 0).val + 256 * ((b.s.drop b.i).getD 1 0).val
              + 65536 * ((b.s.drop b.i).getD 2 0).val : Nat) : Int), none)
        ∧ b.ReadInt.1.Len = 0) := by
  refine ⟨?_, ?_, ?_⟩
  · by_cases h : b.Len = 0
    · simp [BytesReader.ReadBytes, BytesReader.ReadInt, BytesReader.ReadLong,
        BytesReader.ReadString, Read_eof b _ h, h]
    · obtain ⟨b1, bs1, k1, e1⟩ := Read_ok b (List.replicate n 0) (by omega)
      obtain ⟨b2, bs2, k2, e2⟩ := Read_ok b (List.replicate 4 0) (by omega)
      obtain ⟨b3, bs3, k3, e3⟩ := Read_ok b (List.replicate 8 0) (by omega)
      simp only [BytesReader.ReadBytes, BytesReader.ReadInt, BytesReader.ReadLong,
        BytesReader.ReadString, e1, e2, e3]
      simp [h]
  · intro h0 hn
    have hr := Read_short b (List.replicate n 0) h0 (by simp; omega)
    have hl : (b.s.drop b.i).length = b.Len := by simp [BytesReader.Len]
    simp only [BytesReader.ReadBytes, BytesReader.ReadString, hr, List.drop_replicate]
    refine ⟨trivial, ?_, ?_, trivial⟩
    · simp only [List.length_append, hl, List.length_replicate]
      omega
    · simp only [BytesReader.Len]
      omega
  · intro h0 h4
    have hr := Read_short b (List.replicate 4 0) h0 (by simp; omega)
    have hl : (b.s.drop b.i).length = b.Len := by simp [BytesReader.Len]
    have h3 : (b.s.drop b.i).getD 3 0 = 0 := by
      rw [List.getD_eq_getElem?_getD, List.getElem?_eq_none (by omega)]
      rfl
    simp only [BytesReader.ReadInt, hr, List.drop_replicate, getD_append_replicate_zero,
      Uint32_eq_sum, h3]
    refine ⟨?_, ?_⟩
    · have hb0 := ((b.s.drop b.i).getD 0 0).isLt
      have hb1 := ((b.s.drop b.i).getD 1 0).isLt
      have hb2 := ((b.s.drop b.i).getD 2 0).isLt
      simp only [Prod.mk.injEq, and_true]
      unfold int32OfUint32
      simp only [Fin.val_zero, Nat.mul_zero, Nat.add_zero]
      split_ifs with hlt
      · omega
      · omega
    · simp only [BytesReader.Len]
      omega

/-- The short read of C19 for a reader over the two bytes `[1, 2]`. -/
theorem ReadBytes_short_read_witness :
    (0 < (NewBytesReader [1, 2]).Len ∧ (NewBytesReader [1, 2]).Len < 4)
    ∧ ((NewBytesReader [1, 2]).ReadBytes 4).2 = ([1, 2, 0, 0], none)
    ∧ (NewBytesReader [1, 2]).ReadInt.2 = (513, none)
    ∧ (NewBytesReader [1, 2]).ReadInt.1.Len = 0
    ∧ ((NewBytesReader []).ReadBytes 4).2.2 = some IOError.EOF := by
  have key := ReadBytes_short_read (NewBytesReader [1, 2]) 4
  have h1 := key.2.1 (by decide) (by decide)
  have h2 := key.2.2 (by decide) (by decide)
  have h3 := (ReadBytes_short_read (NewBytesReader []) 4).1.1.mpr (by decide)
  exact ⟨⟨by decide, by decide⟩, h1.1, h2.1, h2.2, h3⟩

/-! ## Unambiguous string vectors -/

theorem PutUint32_injective (a b : Nat) (ha : a < 2 ^ 32) (hb : b < 2 ^ 32)
    (h : PutUint32 a = PutUint32 b) : a = b := by
  have ea := Uint32_PutUint32 a
  have eb := Uint32_PutUint32 b
  simp only [PutUint32, List.cons.injEq, and_true] at h
  obtain ⟨h0, h1, h2, h3⟩ := h
  rw [h0, h1, h2, h3, eb] at ea
  rw [Nat.mod_eq_of_lt ha, Nat.mod_eq_of_lt hb] at ea
  exact ea.symm

theorem stringBytes_literal (c : Collab) (s : GoString)
    (hp : hashSentinel.isPrefixOf s = false) (hl : s.length < 2 ^ 32 - 1) :
    stringBytes c s = PutUint32 (s.length + 1) ++ (s ++ [0]) := by
  have hw : uint32OfInt ((s.length : Int) + 1) = s.length + 1 := by
    unfold uint32OfInt
    omega
  simp only [stringBytes, hp, hw, Bool.false_eq_true, if_false, List.append_assoc]

theorem stringBytes_append_inj (c : Collab) (s t : GoString) (r1 r2 : List Byte)
    (hps : hashSentinel.isPrefixOf s = false) (hls : s.length < 2 ^ 32 - 1)
    (hpt : hashSentinel.isPrefixOf t = false) (hlt : t.length < 2 ^ 32 - 1)
    (h : stringBytes c s ++ r1 = stringBytes c t ++ r2) : s = t ∧ r1 = r2 := by
  rw [stringBytes_literal c s hps hls, stringBytes_literal c t hpt hlt] at h
  simp only [List.append_assoc] at h
  obtain ⟨h1, h2⟩ := List.append_inj h (by simp [PutUint32_length])
  have hlen : s.length + 1 = t.length + 1 :=
    PutUint32_injective _ _ (by omega) (by omega) h1
  obtain ⟨h3, h4⟩ := List.append_inj h2 (by omega)
  exact ⟨h3, by simpa using h4⟩

theorem flatten_stringBytes_injective (c : Collab) :
    ∀ ss ts : List GoString,
      (∀ s ∈ ss, hashSentinel.isPrefixOf s = false ∧ s.length < 2 ^ 32 - 1) →
      (∀ s ∈ ts, hashSentinel.isPrefixOf s = false ∧ s.length < 2 ^ 32 - 1) →
      (ss.map (stringBytes c)).flatten = (ts.map (stringBytes c)).flatten → ss = ts := by
  intro ss
  induction ss with
  | nil =>
    intro ts _ hts h
    cases ts with
    | nil => rfl
    | cons t ts =>
      obtain ⟨hp, hl⟩ := hts t (List.mem_cons_self _ _)
      have := congrArg List.length h
      rw [List.map_cons, List.flatten_cons, stringBytes_literal c t hp hl] at this
      simp [PutUint32_length] at this
      omega
  | cons s ss ih =>
    intro ts hss hts h
    obtain ⟨hps, hls⟩ := hss s (List.mem_cons_self _ _)
    cases ts with
    | nil =>
      have := congrArg List.length h
      rw [List.map_cons, List.flatten_cons, stringBytes_literal c s hps hls] at this
      simp [PutUint32_length] at this
    | cons t ts =>
      obtain ⟨hpt, hlt⟩ := hts t (List.mem_cons_self _ _)
      simp only [List.map_cons, List.flatten_cons] at h
      obtain ⟨h1, h2⟩ := stringBytes_append_inj c s t _ _ hps hls hpt hlt h
      rw [h1, ih ts (fun x hx => hss x (List.mem_cons_of_mem _ hx))
        (fun x hx => hts x (List.mem_cons_of_mem _ hx)) h2]

/-- C20: String-vector encoding is unambiguous for literal strings. For two lists of
strings, none of which starts with `"###"` and each shorter than `2^32 - 1` bytes, equal
results of `EncodeValueStringVector` imply equal lists (whatever the lengths of the lists);
and `EncodeValueString` is injective on such strings. -/
theorem EncodeValueStringVector_injective (c : Collab) (ss ts : List GoString)
    (s t : GoString)
    (hss : ∀ x ∈ ss, hashSentinel.isPrefixOf x = false ∧ x.length < 2 ^ 32 - 1)
    (hts : ∀ x ∈ ts, hashSentinel.isPrefixOf x = false ∧ x.length < 2 ^ 32 - 1)
    (hs : hashSentinel.isPrefixOf s = false ∧ s.length < 2 ^ 32 - 1)
    (ht : hashSentinel.isPrefixOf t = false ∧ t.length < 2 ^ 32 - 1) :
    (EncodeValueStringVector c (.strings ss) = EncodeValueStringVector c (.strings ts)
      → ss = ts)
    ∧ (EncodeValueString c (.string s) = EncodeValueString c (.string t) → s = t) := by
  constructor
  · intro h
    rw [EncodeValueStringVector_eq, EncodeValueStringVector_eq] at h
    simp only [Option.some.injEq] at h
    obtain ⟨-, h2⟩ := List.append_inj h (by simp [PutUint32_length])
    exact flatten_stringBytes_injective c ss ts hss hts h2
  · intro h
    rw [EncodeValueString_eq, EncodeValueString_eq] at h
    simp only [Option.some.injEq] at h
    have h2 : stringBytes c s ++ [] = stringBytes c t ++ [] := by
      rw [List.append_nil, List.append_nil, h]
    exact (stringBytes_append_inj c s t [] [] hs.1 hs.2 ht.1 ht.2 h2).1

/-- The injectivity of C20 at the lists `["a"]` and `["b"]`, whose encodings differ. -/
theorem EncodeValueStringVector_injective_witness :
    ((∀ x ∈ [([97] : GoString)], hashSentinel.isPrefixOf x = false ∧ x.length < 2 ^ 32 - 1)
      ∧ (∀ x ∈ [([98] : GoString)], hashSentinel.isPrefixOf x = false ∧ x.length < 2 ^ 32 - 1))
    ∧ EncodeValueStringVector sampleCollab (.strings [[97]])
        ≠ EncodeValueStringVector sampleCollab (.strings [[98]])
    ∧ EncodeValueString sampleCollab (.string [97])
        ≠ EncodeValueString sampleCollab (.string [98]) := by
  have ha : ∀ x ∈ [([97] : GoString)],
      hashSentinel.isPrefixOf x = false ∧ x.length < 2 ^ 32 - 1 := by
    intro x hx
    rw [List.mem_singleton.mp hx]
    decide
  have hb : ∀ x ∈ [([98] : GoString)],
      hashSentinel.isPrefixOf x = false ∧ x.length < 2 ^ 32 - 1 := by
    intro x hx
    rw [List.mem_singleton.mp hx]
    decide
  have key := EncodeValueStringVector_injective sampleCollab [[97]] [[98]] [97] [98] ha hb
    (by decide) (by decide)
  exact ⟨⟨ha, hb⟩, fun h => absurd (key.1 h) (by decide), fun h => absurd (key.2 h) (by decide)⟩

end Dson
